import Mathlib

/-!
Verification of the CFG / dataflow / LVN / TDCE middle-end.

The definitions below are a shallow embedding of the Python sources:
`cs6120/cfg.py`, `cs6120/df.py`, `cs6120/cprop.py`, `cs6120/dom.py`,
`cs6120/lvn.py`, `df/cprop.py`, `lvn/lvn.py` and `tdce/tdce.py`.
Python dictionaries are embedded as association lists (insertion ordered,
as Python dicts are) and Python sets / constant-propagation dicts as
key-sorted lists, so that Lean equality coincides with Python `==` on the
values the passes actually compare.  A raised Python exception is embedded
as `none`.
-/

namespace Bril

/-- Literal payload of a `const` instruction (a JSON int or bool). -/
inductive Lit where
  | int (i : Int)
  | bool (b : Bool)
deriving DecidableEq

/-- An instruction record: a Python dict with optional fields.  A field that
is absent from the dict is `none`. -/
structure Instr where
  op : Option String
  dest : Option String
  type : Option String
  args : Option (List String)
  labels : Option (List String)
  funcs : Option (List String)
  value : Option Lit
  label : Option String
deriving DecidableEq

/-- The instruction record with every field absent; concrete instructions
override the fields their Python dict carries. -/
def noInstr : Instr := ⟨none, none, none, none, none, none, none, none⟩

abbrev Block := List Instr

/-- `TERMINATORS` from cs6120/cfg.py. -/
def TERMINATORS : List String := ["jmp", "br", "ret"]

/-! ### Association lists: Python `dict` (insertion ordered) -/

/-- Python dict read `m[k]` / `m.get(k)`. -/
def alookup {α : Type} (m : List (String × α)) (k : String) : Option α :=
  match m with
  | [] => none
  | (k', v) :: t => if k' = k then some v else alookup t k

/-- Python dict write `m[k] = v`: an existing key keeps its position, a new
key is appended at the end. -/
def aset {α : Type} (m : List (String × α)) (k : String) (v : α) :
    List (String × α) :=
  match m with
  | [] => [(k, v)]
  | (k', v') :: t => if k' = k then (k, v) :: t else (k', v') :: aset t k v

/-- The keys of a dict, in insertion order. -/
def akeys {α : Type} (m : List (String × α)) : List String := m.map (·.1)

/-! ### cs6120/cfg.py : block formation -/

/-- `is_label` from `form_blocks`: a record lacking `op` is a label marker. -/
def isLabel (i : Instr) : Bool := i.op.isNone

/-- The loop body of `form_blocks`, carrying the current block. -/
def formBlocksGo (cur : Block) : List Instr → List Block
  | [] => if cur.isEmpty then [] else [cur]
  | i :: rest =>
    if isLabel i then
      if cur.isEmpty then formBlocksGo [i] rest
      else cur :: formBlocksGo [i] rest
    else
      if i.op.getD "" ∈ TERMINATORS then (cur ++ [i]) :: formBlocksGo [] rest
      else formBlocksGo (cur ++ [i]) rest

/-- `form_blocks` from cs6120/cfg.py. -/
def formBlocks (body : List Instr) : List Block := formBlocksGo [] body

/-- The naming loop of `name_blocks` (before `add_terminators`).  A block
whose first entry is a label marker adopts the label as its name and drops
the marker; otherwise it gets a fresh name `b<k>`.  The Python source
indexes `block[0]`, which only runs on the non-empty blocks `form_blocks`
yields; an empty block is given a fresh name here to keep the function
total. -/
def nameBlocksGo (acc : List (String × Block)) (next : Nat) :
    List Block → List (String × Block)
  | [] => acc
  | b :: rest =>
    match b.head? with
    | some i =>
      match i.label with
      | some name => nameBlocksGo (aset acc name b.tail) next rest
      | none => nameBlocksGo (aset acc ("b" ++ toString next) b) (next + 1) rest
    | none => nameBlocksGo (aset acc ("b" ++ toString next) b) (next + 1) rest

/-- The synthetic `{op: jmp, labels: [l]}` appended by `add_terminators`. -/
def jmpTo (l : String) : Instr := { noInstr with op := some "jmp", labels := some [l] }

/-- The synthetic `{op: ret, args: []}` appended by `add_terminators`. -/
def retVoid : Instr := { noInstr with op := some "ret", args := some [] }

/-- The test `not block or block[-1]["op"] not in TERMINATORS`, negated.
A trailing label marker (no `op`) cannot occur in a named block; it is
treated as a non-terminator. -/
def endsWithTerminator (b : Block) : Bool :=
  match b.getLast? with
  | none => false
  | some i => i.op.getD "" ∈ TERMINATORS

/-- `add_terminators` from cs6120/cfg.py: a block that does not end in a
terminator gets a `jmp` to the textually next block, or a `ret` if it is
the last block. -/
def addTerminators : List (String × Block) → List (String × Block)
  | [] => []
  | [(n, b)] => [(n, if endsWithTerminator b then b else b ++ [retVoid])]
  | (n, b) :: (n2, b2) :: rest =>
    (n, if endsWithTerminator b then b else b ++ [jmpTo n2]) ::
      addTerminators ((n2, b2) :: rest)

/-- `name_blocks` from cs6120/cfg.py: assign names, then fix terminators. -/
def nameBlocks (bs : List Block) : List (String × Block) :=
  addTerminators (nameBlocksGo [] 0 bs)

/-- `get_cfg` from cs6120/cfg.py: successors of each named block.  The
Python source indexes `block[-1]` and `last["labels"]`; both always exist
after `add_terminators`, and are embedded with defaults. -/
def getCfg : List (String × Block) → List (String × List String)
  | [] => []
  | (n, b) :: rest =>
    let succ :=
      match b.getLast? with
      | none => []
      | some last =>
        if last.op.getD "" ∈ (["jmp", "br"] : List String) then last.labels.getD []
        else if last.op.getD "" = "ret" then []
        else
          match rest with
          | [] => []
          | (n2, _) :: _ => [n2]
    (n, succ) :: getCfg rest

/-- `find_predecessors` from cs6120/cfg.py (also in df.py): invert the
successor map.  `preds[c]` lists, in key order, every `a` with
`c ∈ succs[a]`. -/
def findPredecessors (succs : List (String × List String)) :
    List (String × List String) :=
  succs.map (fun p => (p.1, (succs.filter (fun q => p.1 ∈ q.2)).map (·.1)))

/-- The Python list comprehension `[m[k] for k in ks]`: `none` models the
`KeyError` raised when some key is missing. -/
def lookupAll {α : Type} (m : List (String × α)) : List String → Option (List α)
  | [] => some []
  | k :: t =>
    match alookup m k, lookupAll m t with
    | some v, some vs => some (v :: vs)
    | _, _ => none

/-- A Python `for` loop threading an accumulator, where the body may raise
(`none`). -/
def ofoldl {α β : Type} (f : β → α → Option β) (init : β) :
    List α → Option β
  | [] => some init
  | x :: t =>
    match f init x with
    | none => none
    | some b => ofoldl f b t

/-! ### Basic association-list lemmas -/

@[simp] theorem akeys_nil {α : Type} : akeys ([] : List (String × α)) = [] := rfl

@[simp] theorem akeys_cons {α : Type} (k : String) (v : α) (t : List (String × α)) :
    akeys ((k, v) :: t) = k :: akeys t := rfl

@[simp] theorem alookup_nil {α : Type} (k : String) :
    alookup ([] : List (String × α)) k = none := rfl

@[simp] theorem alookup_cons {α : Type} (k' k : String) (v : α)
    (t : List (String × α)) :
    alookup ((k', v) :: t) k = if k' = k then some v else alookup t k := rfl

theorem alookup_aset_self {α : Type} (m : List (String × α)) (k : String) (v : α) :
    alookup (aset m k v) k = some v := by
  induction m with
  | nil => simp [aset]
  | cons h t ih =>
    obtain ⟨k', v'⟩ := h
    by_cases hk : k' = k
    · simp [aset, hk]
    · simp [aset, hk, ih]

theorem alookup_aset_ne {α : Type} (m : List (String × α)) (k c : String) (v : α)
    (h : k ≠ c) : alookup (aset m k v) c = alookup m c := by
  induction m with
  | nil => simp [aset, h]
  | cons hd t ih =>
    obtain ⟨k', v'⟩ := hd
    by_cases hk : k' = k
    · subst hk
      simp [aset, h]
    · simp [aset, hk, ih]

theorem aset_self {α : Type} (m : List (String × α)) (k : String) (v : α)
    (h : alookup m k = some v) : aset m k v = m := by
  induction m with
  | nil => simp at h
  | cons hd t ih =>
    obtain ⟨k', v'⟩ := hd
    by_cases hk : k' = k
    · subst hk
      simp at h
      simp [aset, h]
    · simp [hk] at h
      simp [aset, hk, ih h]

theorem alookup_mem {α : Type} {m : List (String × α)} {k : String} {v : α}
    (h : alookup m k = some v) : (k, v) ∈ m := by
  induction m with
  | nil => simp at h
  | cons hd t ih =>
    obtain ⟨k', v'⟩ := hd
    by_cases hk : k' = k
    · subst hk
      simp at h
      simp [h]
    · simp [hk] at h
      simp [ih h]

theorem alookup_isSome_of_mem_keys {α : Type} {m : List (String × α)} {k : String}
    (h : k ∈ akeys m) : ∃ v, alookup m k = some v := by
  induction m with
  | nil => simp at h
  | cons hd t ih =>
    obtain ⟨k', v'⟩ := hd
    by_cases hk : k' = k
    · exact ⟨v', by simp [hk]⟩
    · have h' : k ∈ akeys t := by
        rcases List.mem_cons.mp (by simpa using h) with h1 | h1
        · exact absurd h1.symm hk
        · exact h1
      obtain ⟨v, hv⟩ := ih h'
      exact ⟨v, by simp [hk, hv]⟩

theorem mem_keys_of_alookup {α : Type} {m : List (String × α)} {k : String} {v : α}
    (h : alookup m k = some v) : k ∈ akeys m := by
  simpa [akeys] using List.mem_map_of_mem (fun p => p.1) (alookup_mem h)

theorem alookup_of_mem_nodup {α : Type} {m : List (String × α)} {k : String} {v : α}
    (hnd : (akeys m).Nodup) (h : (k, v) ∈ m) : alookup m k = some v := by
  induction m with
  | nil => simp at h
  | cons hd t ih =>
    obtain ⟨k', v'⟩ := hd
    have hnd' : k' ∉ akeys t ∧ (akeys t).Nodup := by simpa using hnd
    rcases List.mem_cons.mp h with h1 | h1
    · injection h1 with hk hv
      subst hk
      subst hv
      simp
    · have hk : k' ≠ k := by
        intro hkk
        subst hkk
        exact hnd'.1 (by simpa [akeys] using List.mem_map_of_mem (fun p => p.1) h1)
      simp [hk]
      exact ih hnd'.2 h1

theorem lookupAll_aset_notmem {α : Type} (m : List (String × α)) (b : String)
    (v : α) (l : List String) (h : b ∉ l) :
    lookupAll (aset m b v) l = lookupAll m l := by
  induction l with
  | nil => rfl
  | cons x t ih =>
    have hx : b ≠ x := fun hb => h (hb ▸ List.mem_cons_self x t)
    have ht : b ∉ t := fun hb => h (List.mem_cons_of_mem x hb)
    simp only [lookupAll, alookup_aset_ne m b x v hx, ih ht]

theorem akeys_aset {α : Type} (m : List (String × α)) (k : String) (v : α) :
    akeys (aset m k v) = if k ∈ akeys m then akeys m else akeys m ++ [k] := by
  induction m with
  | nil => simp [aset]
  | cons hd t ih =>
    obtain ⟨k', v'⟩ := hd
    by_cases hk : k' = k
    · subst hk
      simp [aset]
    · have hne : ¬(k = k') := fun hh => hk hh.symm
      by_cases hmem : k ∈ akeys t
      · simp [aset, hk, ih, hmem, hne]
      · simp [aset, hk, ih, hmem, hne]

theorem akeys_aset_nodup {α : Type} (m : List (String × α)) (k : String) (v : α)
    (h : (akeys m).Nodup) : (akeys (aset m k v)).Nodup := by
  rw [akeys_aset]
  by_cases hk : k ∈ akeys m
  · simpa [hk]
  · simpa [hk, List.nodup_append] using h

/-! ### Keys of the constructed maps -/

theorem akeys_addTerminators (l : List (String × Block)) :
    akeys (addTerminators l) = akeys l := by
  induction l with
  | nil => rfl
  | cons hd t ih =>
    obtain ⟨n, b⟩ := hd
    cases t with
    | nil => simp [addTerminators, akeys]
    | cons hd2 t2 =>
      obtain ⟨n2, b2⟩ := hd2
      simp only [addTerminators, akeys, List.map_cons]
      have := ih
      simp only [akeys] at this
      rw [this]
      simp

theorem nameBlocksGo_keys_nodup (bs : List Block) (acc : List (String × Block))
    (next : Nat) (h : (akeys acc).Nodup) :
    (akeys (nameBlocksGo acc next bs)).Nodup := by
  induction bs generalizing acc next with
  | nil => simpa [nameBlocksGo]
  | cons b rest ih =>
    cases hb : b.head? with
    | none =>
      simp only [nameBlocksGo, hb]
      exact ih _ _ (akeys_aset_nodup _ _ _ h)
    | some i =>
      cases hl : i.label with
      | none =>
        simp only [nameBlocksGo, hb, hl]
        exact ih _ _ (akeys_aset_nodup _ _ _ h)
      | some name =>
        simp only [nameBlocksGo, hb, hl]
        exact ih _ _ (akeys_aset_nodup _ _ _ h)

theorem nameBlocks_keys_nodup (bs : List Block) :
    (akeys (nameBlocks bs)).Nodup := by
  rw [nameBlocks, akeys_addTerminators]
  exact nameBlocksGo_keys_nodup bs [] 0 (by simp [akeys])

theorem akeys_getCfg (bs : List (String × Block)) : akeys (getCfg bs) = akeys bs := by
  induction bs with
  | nil => rfl
  | cons hd t ih =>
    obtain ⟨n, b⟩ := hd
    simp only [getCfg, akeys, List.map_cons]
    have := ih
    simp only [akeys] at this
    rw [this]

theorem akeys_findPredecessors (s : List (String × List String)) :
    akeys (findPredecessors s) = akeys s := by
  simp [findPredecessors, akeys]

/-! ### C6: terminator closure -/

theorem addTerminators_closed (l : List (String × Block)) :
    ∀ n b, (n, b) ∈ addTerminators l → b ≠ [] ∧ endsWithTerminator b = true := by
  induction l with
  | nil => simp [addTerminators]
  | cons hd t ih =>
    obtain ⟨n0, b0⟩ := hd
    intro n b hmem
    cases t with
    | nil =>
      simp only [addTerminators, List.mem_singleton] at hmem
      injection hmem with hn hb
      subst hb
      by_cases hterm : endsWithTerminator b0
      · simp only [if_pos hterm]
        refine ⟨?_, hterm⟩
        intro hnil
        rw [hnil] at hterm
        simp [endsWithTerminator] at hterm
      · simp only [if_neg hterm]
        constructor
        · simp
        · simp [endsWithTerminator, List.getLast?_concat, retVoid, noInstr, TERMINATORS]
    | cons hd2 t2 =>
      obtain ⟨n2, b2⟩ := hd2
      simp only [addTerminators, List.mem_cons] at hmem
      rcases hmem with hmem | hmem
      · injection hmem with hn hb
        subst hb
        by_cases hterm : endsWithTerminator b0
        · simp only [if_pos hterm]
          refine ⟨?_, hterm⟩
          intro hnil
          rw [hnil] at hterm
          simp [endsWithTerminator] at hterm
        · simp only [if_neg hterm]
          constructor
          · simp
          · simp [endsWithTerminator, List.getLast?_concat, jmpTo, noInstr, TERMINATORS]
      · exact ih n b hmem

/-- The literal S2 input from the specification:
`[{label:a},{op:const,dest:x,type:int,value:0},{label:b},{op:ret,args:[]}]`. -/
def s2Instrs : List Instr :=
  [ { noInstr with label := some "a" },
    { noInstr with op := some "const", dest := some "x", type := some "int",
                   value := some (Lit.int 0) },
    { noInstr with label := some "b" },
    { noInstr with op := some "ret", args := some [] } ]

/-- C6.  After block formation and naming, every block is non-empty and ends
in a terminator; a block lacking one gets a `jmp` to the textually next
block (or a `ret` if last).  On the S2 input, block `a` gets
`{op:jmp,labels:[b]}` appended and the cfg is `{a:[b], b:[]}`. -/
theorem terminator_closure :
    (∀ (instrs : List Instr) (n : String) (b : Block),
        (n, b) ∈ nameBlocks (formBlocks instrs) →
        b ≠ [] ∧ endsWithTerminator b = true) ∧
    nameBlocks (formBlocks s2Instrs) =
      [("a", [{ noInstr with op := some "const", dest := some "x",
                             type := some "int", value := some (Lit.int 0) },
              jmpTo "b"]),
       ("b", [{ noInstr with op := some "ret", args := some [] }])] ∧
    getCfg (nameBlocks (formBlocks s2Instrs)) = [("a", ["b"]), ("b", [])] := by
  refine ⟨fun instrs n b h => addTerminators_closed _ n b h, ?_, ?_⟩ <;> rfl

/-- Witness: the terminator-closure theorem applied to the concrete S2 input. -/
theorem terminator_closure_witness :
    ("a", [{ noInstr with op := some "const", dest := some "x",
                          type := some "int", value := some (Lit.int 0) },
           jmpTo "b"]) ∈ nameBlocks (formBlocks s2Instrs) ∧
    ([{ noInstr with op := some "const", dest := some "x", type := some "int",
                     value := some (Lit.int 0) }, jmpTo "b"] ≠ ([] : Block) ∧
     endsWithTerminator [{ noInstr with op := some "const", dest := some "x",
                                        type := some "int",
                                        value := some (Lit.int 0) },
                         jmpTo "b"] = true) :=
  ⟨by rw [terminator_closure.2.1]; simp,
   terminator_closure.1 s2Instrs "a" _ (by rw [terminator_closure.2.1]; simp)⟩

/-! ### tdce/tdce.py -/

/-- Lexicographic comparison of character lists by code point. -/
def charsLt : List Char → List Char → Bool
  | [], [] => false
  | [], _ :: _ => true
  | _ :: _, [] => false
  | c :: cs, d :: ds =>
    if c.toNat < d.toNat then true
    else if d.toNat < c.toNat then false
    else charsLt cs ds

/-- Python string `<`: lexicographic by code point. -/
def strLt (a b : String) : Bool := charsLt a.data b.data

/-- Insert into a key-sorted duplicate-free list: the canonical embedding of
a Python `set` of strings (Python set equality ignores order). -/
def sinsert (x : String) : List String → List String
  | [] => [x]
  | y :: t =>
    if x = y then y :: t
    else if strLt x y then x :: y :: t
    else y :: sinsert x t

/-- `s.union(l)` for a Python string set. -/
def sunion (s : List String) (l : List String) : List String :=
  l.foldl (fun acc x => sinsert x acc) s

/-- `used` in `remove_def_with_no_use`: the union of `args` across all
instructions. -/
def usedVars (instrs : List Instr) : List String :=
  instrs.foldl
    (fun used i =>
      match i.args with
      | some l => sunion used l
      | none => used)
    []

/-- `remove_def_with_no_use` from tdce/tdce.py, including the early return
taken when no instruction has `args`. -/
def removeDefWithNoUse (instrs : List Instr) : List Instr :=
  let used := usedVars instrs
  if used.isEmpty then instrs
  else
    instrs.filter fun i =>
      match i.dest with
      | none => true
      | some d => d ∈ used

theorem removeDefWithNoUse_length_le (instrs : List Instr) :
    (removeDefWithNoUse instrs).length ≤ instrs.length := by
  unfold removeDefWithNoUse
  by_cases h : (usedVars instrs).isEmpty
  · simp [h]
  · simp only [if_neg h]
    exact List.length_filter_le _ _

/-- The `while True` loop body of tdce/tdce.py `main`, with explicit
rounds. -/
def tdceGo : Nat → List Instr → List Instr
  | 0, instrs => instrs
  | fuel + 1, instrs =>
    let res := removeDefWithNoUse instrs
    if res.length = instrs.length then instrs
    else tdceGo fuel res

/-- The `main` loop of tdce/tdce.py for the `tdce` pass: rerun
`remove_def_with_no_use` until the instruction count converges.  Every
round either stops or strictly shrinks the list, so `length + 1` rounds
always reach the Python loop's fixed point. -/
def tdceFix (instrs : List Instr) : List Instr := tdceGo (instrs.length + 1) instrs

/-! ### Constant-propagation values -/

/-- A constant-propagation value of cs6120/cprop.py: a known literal or the
`"?"` sentinel.  Python stores ints and bools and compares them with `==`,
under which `True == 1` and `False == 0`; booleans are embedded canonically
as 0/1, which coincides with Python equality on well-typed IR. -/
inductive CVal where
  | int (i : Int)
  | unknown
deriving DecidableEq

/-- Canonical value of a literal (booleans become 0/1). -/
def litToInt : Lit → Int
  | Lit.int i => i
  | Lit.bool b => if b then 1 else 0

def CVal.ofLit (l : Lit) : CVal := CVal.int (litToInt l)

def CVal.toInt : CVal → Int
  | CVal.int i => i
  | CVal.unknown => 0

abbrev CDict := List (String × CVal)

/-- Key-sorted dict insert: the canonical embedding of Python dict update
for value maps (Python `==` on dicts ignores insertion order). -/
def dinsert {α : Type} (k : String) (v : α) : List (String × α) → List (String × α)
  | [] => [(k, v)]
  | (k', v') :: t =>
    if k = k' then (k, v) :: t
    else if strLt k k' then (k, v) :: (k', v') :: t
    else (k', v') :: dinsert k v t

/-- Python `m.pop(k, None)`. -/
def dremove {α : Type} (k : String) (m : List (String × α)) : List (String × α) :=
  m.filter (·.1 ≠ k)

/-- `EVAL_OPS` from cs6120/cprop.py and df/cprop.py. -/
def EVAL_OPS : List String :=
  ["add", "mul", "sub", "div", "eq", "lt", "gt", "le", "ge", "not", "and", "or"]

/-- `EVAL_OPS[op](*vals)` on canonical values.  `none` models a raised
exception: wrong arity (`TypeError`) or `operator.floordiv` by zero
(`ZeroDivisionError`).  Python `floordiv` rounds toward negative infinity
(`Int.fdiv`); comparisons return (canonical) booleans, and `and`/`or` act
on canonical booleans. -/
def evalOp : String → List Int → Option Int
  | "add", [a, b] => some (a + b)
  | "mul", [a, b] => some (a * b)
  | "sub", [a, b] => some (a - b)
  | "div", [a, b] => if b = 0 then none else some (Int.fdiv a b)
  | "eq", [a, b] => some (if a = b then 1 else 0)
  | "lt", [a, b] => some (if a < b then 1 else 0)
  | "gt", [a, b] => some (if b < a then 1 else 0)
  | "le", [a, b] => some (if a ≤ b then 1 else 0)
  | "ge", [a, b] => some (if b ≤ a then 1 else 0)
  | "not", [a] => some (if a = 0 then 1 else 0)
  | "and", [a, b] => some (if a ≠ 0 ∧ b ≠ 0 then 1 else 0)
  | "or", [a, b] => some (if a ≠ 0 ∨ b ≠ 0 then 1 else 0)
  | _, _ => none

/-- `fold` from cs6120/cprop.py.  The outer `none` models a raised
exception; `some none` is the `None` return (abstain); `some (some v)` a
folded constant.  The Python `assert False` branch is unreachable because
`EVAL_OPS` is exactly the twelve handled operators. -/
def foldInstr (instr : Instr) (var2const : CDict) : Option (Option CVal) :=
  match instr.op with
  | none => none
  | some op =>
    if op ∉ EVAL_OPS then some none
    else
      match instr.args with
      | none => none
      | some args =>
        let vals := args.map fun a => (alookup var2const a).getD CVal.unknown
        let finish : Option (Option CVal) :=
          if vals.all (· ≠ CVal.unknown) then
            match evalOp op (vals.map CVal.toInt) with
            | none => none
            | some r => some (some (CVal.int r))
          else some none
        if op ∈ (["add", "mul", "sub", "div"] : List String) then
          if op = "div" then
            match vals[1]? with
            | none => none
            | some v1 => if v1 = CVal.int 0 then some none else finish
          else finish
        else if op ∈ (["eq", "lt", "gt", "le", "ge"] : List String) then
          match args[0]?, args[1]? with
          | some a0, some a1 =>
            if a0 = a1 then
              if op ∈ (["eq", "le", "ge"] : List String) then some (some (CVal.int 1))
              else some (some (CVal.int 0))
            else finish
          | _, _ => none
        else
          if op = "and" then
            match vals[0]? with
            | none => none
            | some v0 =>
              if v0 = CVal.int 0 then some (some (CVal.int 0))
              else
                match vals[1]? with
                | none => none
                | some v1 =>
                  if v1 = CVal.int 0 then some (some (CVal.int 0)) else finish
          else if op = "or" then
            match vals[0]? with
            | none => none
            | some v0 =>
              if v0 = CVal.int 1 then some (some (CVal.int 1))
              else
                match vals[1]? with
                | none => none
                | some v1 =>
                  if v1 = CVal.int 1 then some (some (CVal.int 1)) else finish
          else finish

/-- One instruction of the transfer walk of cs6120/cprop.py `out`.
Records lacking `op` or `dest` are skipped. -/
def cpropStep (var2const : CDict) (instr : Instr) : Option CDict :=
  match instr.op, instr.dest with
  | some op, some dest =>
    let foldOrUnknown : Option CDict :=
      match foldInstr instr var2const with
      | none => none
      | some (some r) => some (dinsert dest r var2const)
      | some none => some (dinsert dest CVal.unknown var2const)
    if op = "const" then
      match instr.value with
      | none => none
      | some v => some (dinsert dest (CVal.ofLit v) var2const)
    else if op = "id" then
      match instr.args with
      | none => none
      | some args =>
        match args[0]? with
        | none => none
        | some a0 =>
          let v := (alookup var2const a0).getD CVal.unknown
          if v ≠ CVal.unknown then some (dinsert dest v var2const)
          else foldOrUnknown
    else foldOrUnknown
  | _, _ => some var2const

/-- `out` from cs6120/cprop.py: the constant-propagation transfer
function. -/
def cpropOut (b : Block) (in_ : CDict) : Option CDict := b.foldlM cpropStep in_

/-- `out` from df/cprop.py (the older constant-propagation transfer).  The
IN set of `Const(name, value)` pairs is embedded as a key-sorted map;
`none` models a raised exception — in particular `operator.floordiv`
raising `ZeroDivisionError` on a zero divisor. -/
def cpropOutOld (b : Block) (in_ : List (String × Int)) :
    Option (List (String × Int)) :=
  b.foldlM
    (fun name2value instr =>
      match instr.op with
      | none => some name2value
      | some op =>
        if op = "const" then
          match instr.dest, instr.value with
          | some dest, some v => some (dinsert dest (litToInt v) name2value)
          | _, _ => none
        else if op = "id" then
          match instr.args with
          | none => none
          | some args =>
            match args[0]? with
            | none => none
            | some arg =>
              match alookup name2value arg with
              | some v =>
                match instr.dest with
                | some d => some (dinsert d v name2value)
                | none => none
              | none =>
                match instr.dest with
                | some d => some (dremove d name2value)
                | none => none
        else if op ∈ EVAL_OPS then
          match instr.args with
          | none => none
          | some args =>
            if args.all fun a => (alookup name2value a).isSome then
              match lookupAll name2value args with
              | some vals =>
                match evalOp op vals, instr.dest with
                | some r, some d => some (dinsert d r name2value)
                | none, _ => none
                | some _, none => none
              | none => none
            else
              match instr.dest with
              | some d => some (dremove d name2value)
              | none => none
        else some name2value)
    in_

/-! ### C3: the global dead-def pass keeps a use-less def -/

/-- The one-instruction function `x: int = const 1`. -/
def c3Instr : Instr :=
  { noInstr with op := some "const", dest := some "x", type := some "int",
                 value := some (Lit.int 1) }

/-- C3 (code-bug evaluation).  On the one-instruction function
`x: int = const 1`, the iterated global dead-def pass returns the
instruction unchanged — `used` is empty, so `remove_def_with_no_use`
returns its input early — and the output contains a def whose dest occurs
in no instruction's `args`, contradicting the claimed postcondition that
every remaining dest is used. -/
theorem tdce_dead_def_remains :
    tdceFix [c3Instr] = [c3Instr] ∧
    ¬(∀ i ∈ tdceFix [c3Instr], ∀ d : String, i.dest = some d →
        ∃ j ∈ tdceFix [c3Instr], d ∈ j.args.getD []) := by
  constructor
  · rfl
  · intro h
    have := h c3Instr (by rw [show tdceFix [c3Instr] = [c3Instr] from rfl]; simp)
      "x" rfl
    rw [show tdceFix [c3Instr] = [c3Instr] from rfl] at this
    simp [c3Instr, noInstr] at this

/-! ### C8: division by zero in constant folding -/

/-- The block `a: int = const 1; b: int = const 0; d: int = div a b`. -/
def divBlock : Block :=
  [ { noInstr with op := some "const", dest := some "a", type := some "int",
                   value := some (Lit.int 1) },
    { noInstr with op := some "const", dest := some "b", type := some "int",
                   value := some (Lit.int 0) },
    { noInstr with op := some "div", dest := some "d", type := some "int",
                   args := some ["a", "b"] } ]

/-- C8 (code-bug evaluation).  On `a=1; b=0; d = div a b` with an empty IN
map, the cs6120/cprop.py transfer abstains and maps `d` to UNKNOWN, while
the older df/cprop.py transfer evaluates `operator.floordiv(1, 0)` and
raises (`none`). -/
theorem div_by_zero_transfer :
    cpropOut divBlock [] =
      some [("a", CVal.int 1), ("b", CVal.int 0), ("d", CVal.unknown)] ∧
    cpropOutOld divBlock [] = none := by
  constructor <;> decide

/-! ### The three analyses: df/defined.py, df/live.py, cs6120/cprop.py -/

/-- `defs` from df/defined.py: destinations assigned in the block. -/
def defsOf (b : Block) : List String :=
  b.foldl (fun d i => match i.dest with | some x => sinsert x d | none => d) []

/-- `kills` from df/defined.py (same computation as `defs`). -/
def killsOf (b : Block) : List String :=
  b.foldl (fun k i => match i.dest with | some x => sinsert x k | none => k) []

/-- `out` from df/defined.py: `defs(b) ∪ (IN ∖ kills(b))`. -/
def definedOut (b : Block) (in_ : List String) : List String :=
  sunion (defsOf b) (in_.filter (· ∉ killsOf b))

/-- `uses` from df/live.py: scan the block in reverse, discarding on `dest`
and then adding `args`. -/
def usesOf (b : Block) : List String :=
  b.reverse.foldl
    (fun u i =>
      let u1 := match i.dest with | some d => u.filter (· ≠ d) | none => u
      match i.args with
      | some l => sunion u1 l
      | none => u1)
    []

/-- `kills` from df/live.py. -/
def liveKills (b : Block) : List String :=
  b.reverse.foldl
    (fun k i => match i.dest with | some x => sinsert x k | none => k) []

/-- `in_` from df/live.py: `uses(b) ∪ (OUT ∖ kills(b))`. -/
def liveIn (b : Block) (out : List String) : List String :=
  sunion (usesOf b) (out.filter (· ∉ liveKills b))

/-- `set_union` from cs6120/df.py: `set().union(*iterable)`. -/
def setUnionAll (l : List (List String)) : List String := l.foldl sunion []

/-- `dict_intersection` from cs6120/df.py: intersect the dicts as sets of
`(key, value)` pairs, then collect the surviving pairs.  A key whose value
differs between two inputs, or which is missing from some input, is
dropped. -/
def dictIntersection (dicts : List CDict) : CDict :=
  let inter : List (String × CVal) :=
    match dicts with
    | [] => []
    | first :: rest => first.filter fun p => rest.all fun d => p ∈ d
  dicts.foldl
    (fun res d =>
      d.foldl (fun res p => if p ∈ inter then dinsert p.1 p.2 res else res) res)
    []

/-! ### cs6120/df.py : the worklist solver -/

/-- The worklist loop of `DataFlowSolver._solve`, with explicit fuel.
`none` models either fuel exhaustion or a raised `KeyError` on a lookup;
the theorems below only inspect runs that return `some`. -/
def dfLoop {T : Type} [DecidableEq T] (blocks : List (String × Block))
    (succs preds : List (String × List String))
    (transfer : Block → T → Option T) (merge : List T → T) :
    Nat → List (String × T) → List (String × T) → List String →
    Option (List (String × T) × List (String × T))
  | 0, _, _, _ => none
  | _ + 1, ins, outs, [] => some (ins, outs)
  | fuel + 1, ins, outs, b :: rest =>
    match alookup blocks b with
    | none => none
    | some blk =>
      match alookup preds b with
      | none => none
      | some bpreds =>
        match lookupAll outs bpreds with
        | none => none
        | some pouts =>
          let in_ := merge pouts
          match transfer blk in_ with
          | none => none
          | some out =>
            match alookup outs b with
            | none => none
            | some oldOut =>
              if out = oldOut then
                dfLoop blocks succs preds transfer merge fuel
                  (aset ins b in_) (aset outs b out) rest
              else
                match alookup succs b with
                | none => none
                | some bsuccs =>
                  dfLoop blocks succs preds transfer merge fuel
                    (aset ins b in_) (aset outs b out) (rest ++ bsuccs)

/-- `DataFlowSolver._solve` from cs6120/df.py: form and name the blocks,
compute successors and predecessors, swap them for a backward flow, run
the worklist seeded with every block, and swap the returned maps back for
a backward flow (the trailing length test is the Python `assert`). -/
def dfSolve {T : Type} [DecidableEq T] (instrs : List Instr) (backward : Bool)
    (init : T) (transfer : Block → T → Option T) (merge : List T → T)
    (fuel : Nat) :
    Option (List (String × T) × List (String × T)) :=
  let blocks := nameBlocks (formBlocks instrs)
  let succs0 := getCfg blocks
  let preds0 := findPredecessors succs0
  match (if backward then (akeys blocks).getLast? else (akeys blocks).head?) with
  | none => none
  | some entry =>
    let ins0 : List (String × T) := [(entry, init)]
    let outs0 : List (String × T) := blocks.map fun p => (p.1, init)
    let sp := if backward then (preds0, succs0) else (succs0, preds0)
    match dfLoop blocks sp.1 sp.2 transfer merge fuel ins0 outs0 (akeys blocks) with
    | none => none
    | some (ins, outs) =>
      if ins.length = outs.length then
        some (if backward then (outs, ins) else (ins, outs))
      else none

/-- `DataFlowSolver.solve` for `Analysis.DEFINED` (forward, union merge). -/
def solveDefined (instrs : List Instr) (fuel : Nat) :
    Option (List (String × List String) × List (String × List String)) :=
  dfSolve instrs false [] (fun b s => some (definedOut b s)) setUnionAll fuel

/-- `DataFlowSolver.solve` for `Analysis.CPROP` (forward,
`dict_intersection` merge). -/
def solveCprop (instrs : List Instr) (fuel : Nat) :
    Option (List (String × CDict) × List (String × CDict)) :=
  dfSolve instrs false [] cpropOut dictIntersection fuel

/-- `DataFlowSolver.solve` for `Analysis.LIVE` (backward, union merge). -/
def solveLive (instrs : List Instr) (fuel : Nat) :
    Option (List (String × List String) × List (String × List String)) :=
  dfSolve instrs true [] (fun b s => some (liveIn b s)) setUnionAll fuel

/-! ### C5: the solver returns a fixed point -/

/-- The dataflow equation at block `c`: the stored OUT of `c` is the
transfer of the merged OUTs of its predecessors. -/
def fixedAt {T : Type} (blocks : List (String × Block))
    (preds : List (String × List String))
    (transfer : Block → T → Option T) (merge : List T → T)
    (outs : List (String × T)) (c : String) : Prop :=
  ∃ blk bpreds pouts out,
    alookup blocks c = some blk ∧
    alookup preds c = some bpreds ∧
    lookupAll outs bpreds = some pouts ∧
    alookup outs c = some out ∧
    transfer blk (merge pouts) = some out

theorem alookup_map_keys {α β : Type} (s : List (String × α)) (f : String → β)
    (c : String) :
    alookup (s.map fun p => (p.1, f p.1)) c =
      if c ∈ akeys s then some (f c) else none := by
  induction s with
  | nil => simp
  | cons hd t ih =>
    obtain ⟨k, v⟩ := hd
    by_cases hk : k = c
    · subst hk
      simp
    · have : ¬(c = k) := fun h => hk h.symm
      simp [hk, ih, this]

theorem alookup_findPredecessors (s : List (String × List String)) (c : String) :
    alookup (findPredecessors s) c =
      if c ∈ akeys s then some ((s.filter fun q => c ∈ q.2).map (·.1))
      else none := by
  rw [findPredecessors]
  exact alookup_map_keys s (fun k => (s.filter fun q => k ∈ q.2).map (·.1)) c

/-- Edge symmetry used by the worklist invariant, forward orientation:
if `a` is recorded as a predecessor of `c` then `c` is a successor of
`a`. -/
theorem findPredecessors_sym {s : List (String × List String)}
    (hnd : (akeys s).Nodup) :
    ∀ a c ps ss, alookup (findPredecessors s) c = some ps → a ∈ ps →
      alookup s a = some ss → c ∈ ss := by
  intro a c ps ss hp ha hs
  rw [alookup_findPredecessors] at hp
  by_cases hc : c ∈ akeys s
  · rw [if_pos hc] at hp
    injection hp with hp
    subst hp
    obtain ⟨q, hq, hq1⟩ := List.mem_map.mp ha
    obtain ⟨hqs, hqc⟩ := List.mem_filter.mp hq
    obtain ⟨qa, qls⟩ := q
    simp at hq1
    subst hq1
    have := alookup_of_mem_nodup hnd hqs
    rw [hs] at this
    injection this with this
    subst this
    simpa using hqc
  · rw [if_neg hc] at hp
    exact absurd hp (by simp)

/-- Edge symmetry, backward orientation (predecessors and successors
swapped): if `a` is listed in `succs0[c]` then `c` is recorded by
`find_predecessors` as a predecessor of `a`. -/
theorem findPredecessors_sym_rev (s : List (String × List String)) :
    ∀ a c ps ss, alookup s c = some ps → a ∈ ps →
      alookup (findPredecessors s) a = some ss → c ∈ ss := by
  intro a c ps ss hp ha hs
  rw [alookup_findPredecessors] at hs
  by_cases hcA : a ∈ akeys s
  · rw [if_pos hcA] at hs
    injection hs with hs
    subst hs
    refine List.mem_map.mpr ⟨(c, ps), List.mem_filter.mpr ⟨alookup_mem hp, by simpa⟩, rfl⟩
  · rw [if_neg hcA] at hs
    exact absurd hs (by simp)

theorem dfLoop_fixed {T : Type} [DecidableEq T]
    (blocks : List (String × Block)) (succs preds : List (String × List String))
    (transfer : Block → T → Option T) (merge : List T → T)
    (hsym : ∀ a c ps ss, alookup preds c = some ps → a ∈ ps →
        alookup succs a = some ss → c ∈ ss) :
    ∀ (fuel : Nat) (ins outs : List (String × T)) (wl : List String),
      (∀ c, c ∈ akeys blocks → c ∉ wl →
          fixedAt blocks preds transfer merge outs c) →
      ∀ resIns resOuts,
        dfLoop blocks succs preds transfer merge fuel ins outs wl =
          some (resIns, resOuts) →
        ∀ c ∈ akeys blocks, fixedAt blocks preds transfer merge resOuts c := by
  intro fuel
  induction fuel with
  | zero =>
    intro ins outs wl hinv rI rO h
    simp [dfLoop] at h
  | succ fuel ih =>
    intro ins outs wl hinv rI rO h
    cases wl with
    | nil =>
      simp only [dfLoop] at h
      injection h with h
      injection h with h1 h2
      subst h2
      exact fun c hc => hinv c hc (by simp)
    | cons b rest =>
      simp only [dfLoop] at h
      cases hblk : alookup blocks b with
      | none => simp [hblk] at h
      | some blk =>
      simp only [hblk] at h
      cases hpreds : alookup preds b with
      | none => simp [hpreds] at h
      | some bpreds =>
      simp only [hpreds] at h
      cases hpouts : lookupAll outs bpreds with
      | none => simp [hpouts] at h
      | some pouts =>
      simp only [hpouts] at h
      cases htr : transfer blk (merge pouts) with
      | none => simp [htr] at h
      | some out =>
      simp only [htr] at h
      cases hold : alookup outs b with
      | none => simp [hold] at h
      | some oldOut =>
      simp only [hold] at h
      by_cases hchg : out = oldOut
      · rw [if_pos hchg] at h
        subst hchg
        rw [aset_self outs b out hold] at h
        refine ih (aset ins b (merge pouts)) outs rest ?_ rI rO h
        intro c hc hcr
        by_cases hcb : c = b
        · subst hcb
          exact ⟨blk, bpreds, pouts, out, hblk, hpreds, hpouts, hold, htr⟩
        · exact hinv c hc (by simp [hcb, hcr])
      · rw [if_neg hchg] at h
        cases hsuccs : alookup succs b with
        | none => simp [hsuccs] at h
        | some bsuccs =>
        simp only [hsuccs] at h
        refine ih (aset ins b (merge pouts)) (aset outs b out) (rest ++ bsuccs)
          ?_ rI rO h
        intro c hc hcr
        have hcrest : c ∉ rest := fun hr => hcr (List.mem_append.mpr (Or.inl hr))
        have hcsucc : c ∉ bsuccs := fun hr => hcr (List.mem_append.mpr (Or.inr hr))
        by_cases hcb : c = b
        · subst hcb
          have hbnp : c ∉ bpreds := fun hmem =>
            hcsucc (hsym c c bpreds bsuccs hpreds hmem hsuccs)
          exact ⟨blk, bpreds, pouts, out, hblk, hpreds,
            by rw [lookupAll_aset_notmem outs c out bpreds hbnp]; exact hpouts,
            alookup_aset_self outs c out, htr⟩
        · obtain ⟨blkc, psc, poutsc, outc, hblkc, hpsc, hpoutsc, houtc, htrc⟩ :=
            hinv c hc (by simp [hcb, hcrest])
          have hbnp : b ∉ psc := fun hmem =>
            hcsucc (hsym b c psc bsuccs hpsc hmem hsuccs)
          exact ⟨blkc, psc, poutsc, outc, hblkc, hpsc,
            by rw [lookupAll_aset_notmem outs b out psc hbnp]; exact hpoutsc,
            by rw [alookup_aset_ne outs b c out fun hh => hcb hh.symm]; exact houtc,
            htrc⟩

theorem dfSolve_fixed {T : Type} [DecidableEq T] (instrs : List Instr)
    (backward : Bool) (init : T) (transfer : Block → T → Option T)
    (merge : List T → T) (fuel : Nat) (ins outs : List (String × T))
    (h : dfSolve instrs backward init transfer merge fuel = some (ins, outs)) :
    ∀ c ∈ akeys (nameBlocks (formBlocks instrs)),
      fixedAt (nameBlocks (formBlocks instrs))
        (if backward then getCfg (nameBlocks (formBlocks instrs))
         else findPredecessors (getCfg (nameBlocks (formBlocks instrs))))
        transfer merge (if backward then ins else outs) c := by
  have hnd : (akeys (getCfg (nameBlocks (formBlocks instrs)))).Nodup := by
    rw [akeys_getCfg]
    exact nameBlocks_keys_nodup _
  cases backward with
  | false =>
    simp only [dfSolve, Bool.false_eq_true, if_false] at h
    cases hent : (akeys (nameBlocks (formBlocks instrs))).head? with
    | none => simp [hent] at h
    | some entry =>
    simp only [hent] at h
    cases hloop : dfLoop (nameBlocks (formBlocks instrs))
        (getCfg (nameBlocks (formBlocks instrs)))
        (findPredecessors (getCfg (nameBlocks (formBlocks instrs))))
        transfer merge fuel [(entry, init)]
        ((nameBlocks (formBlocks instrs)).map fun p => (p.1, init))
        (akeys (nameBlocks (formBlocks instrs))) with
    | none => simp [hloop] at h
    | some res =>
    obtain ⟨insL, outsL⟩ := res
    simp only [hloop] at h
    by_cases hlen : insL.length = outsL.length
    · rw [if_pos hlen] at h
      injection h with h
      injection h with h1 h2
      subst h1
      subst h2
      simp only [Bool.false_eq_true, if_false]
      exact dfLoop_fixed _ _ _ transfer merge
        (findPredecessors_sym hnd) fuel _ _ _
        (fun c hc hw => absurd hc hw) _ _ hloop
    · rw [if_neg hlen] at h
      exact absurd h (by simp)
  | true =>
    simp only [dfSolve, if_true] at h
    cases hent : (akeys (nameBlocks (formBlocks instrs))).getLast? with
    | none => simp [hent] at h
    | some entry =>
    simp only [hent] at h
    cases hloop : dfLoop (nameBlocks (formBlocks instrs))
        (findPredecessors (getCfg (nameBlocks (formBlocks instrs))))
        (getCfg (nameBlocks (formBlocks instrs)))
        transfer merge fuel [(entry, init)]
        ((nameBlocks (formBlocks instrs)).map fun p => (p.1, init))
        (akeys (nameBlocks (formBlocks instrs))) with
    | none => simp [hloop] at h
    | some res =>
    obtain ⟨insL, outsL⟩ := res
    simp only [hloop] at h
    by_cases hlen : insL.length = outsL.length
    · rw [if_pos hlen] at h
      injection h with h
      injection h with h1 h2
      subst h1
      subst h2
      simp only [if_true]
      exact dfLoop_fixed _ _ _ transfer merge
        (findPredecessors_sym_rev _) fuel _ _ _
        (fun c hc hw => absurd hc hw) _ _ hloop
    · rw [if_neg hlen] at h
      exact absurd h (by simp)

/-- C5.  When `DataFlowSolver.solve` returns, the result is a fixed point
of the dataflow equations: for the forward analyses (defined, cprop) every
block's OUT equals the transfer applied to the merge of its predecessors'
OUTs, and for the backward analysis (live) the same holds with successors
in place of predecessors and the returned IN/OUT maps swapped (the
returned IN map is the loop's OUT map). -/
theorem dataflow_fixed_point :
    (∀ (instrs : List Instr) (fuel : Nat) ins outs,
        solveDefined instrs fuel = some (ins, outs) →
        ∀ c ∈ akeys (nameBlocks (formBlocks instrs)),
          fixedAt (nameBlocks (formBlocks instrs))
            (findPredecessors (getCfg (nameBlocks (formBlocks instrs))))
            (fun b s => some (definedOut b s)) setUnionAll outs c) ∧
    (∀ (instrs : List Instr) (fuel : Nat) ins outs,
        solveCprop instrs fuel = some (ins, outs) →
        ∀ c ∈ akeys (nameBlocks (formBlocks instrs)),
          fixedAt (nameBlocks (formBlocks instrs))
            (findPredecessors (getCfg (nameBlocks (formBlocks instrs))))
            cpropOut dictIntersection outs c) ∧
    (∀ (instrs : List Instr) (fuel : Nat) ins outs,
        solveLive instrs fuel = some (ins, outs) →
        ∀ c ∈ akeys (nameBlocks (formBlocks instrs)),
          fixedAt (nameBlocks (formBlocks instrs))
            (getCfg (nameBlocks (formBlocks instrs)))
            (fun b s => some (liveIn b s)) setUnionAll ins c) := by
  refine ⟨fun instrs fuel ins outs h => ?_, fun instrs fuel ins outs h => ?_,
    fun instrs fuel ins outs h => ?_⟩
  · simpa using dfSolve_fixed instrs false [] _ setUnionAll fuel ins outs h
  · simpa using dfSolve_fixed instrs false [] cpropOut dictIntersection fuel
      ins outs h
  · simpa using dfSolve_fixed instrs true [] _ setUnionAll fuel ins outs h

/-- The S4 scenario of the specification: block `A` sets `x=1`, block `B`
sets `x=2`, block `C` joins them. -/
def s4Instrs : List Instr :=
  [ { noInstr with label := some "entry" },
    { noInstr with op := some "br", args := some ["c"], labels := some ["A", "B"] },
    { noInstr with label := some "A" },
    { noInstr with op := some "const", dest := some "x", type := some "int",
                   value := some (Lit.int 1) },
    { noInstr with op := some "jmp", labels := some ["C"] },
    { noInstr with label := some "B" },
    { noInstr with op := some "const", dest := some "x", type := some "int",
                   value := some (Lit.int 2) },
    { noInstr with op := some "jmp", labels := some ["C"] },
    { noInstr with label := some "C" },
    { noInstr with op := some "ret", args := some [] } ]

/-- Witness: the fixed-point theorem applied to the S4 program for each of
the three analyses, at block `C`. -/
theorem dataflow_fixed_point_witness :
    fixedAt (nameBlocks (formBlocks s4Instrs))
      (findPredecessors (getCfg (nameBlocks (formBlocks s4Instrs))))
      (fun b s => some (definedOut b s)) setUnionAll
      [("entry", []), ("A", ["x"]), ("B", ["x"]), ("C", ["x"])] "C" ∧
    fixedAt (nameBlocks (formBlocks s4Instrs))
      (findPredecessors (getCfg (nameBlocks (formBlocks s4Instrs))))
      cpropOut dictIntersection
      [("entry", []), ("A", [("x", CVal.int 1)]), ("B", [("x", CVal.int 2)]),
       ("C", [])] "C" ∧
    fixedAt (nameBlocks (formBlocks s4Instrs))
      (getCfg (nameBlocks (formBlocks s4Instrs)))
      (fun b s => some (liveIn b s)) setUnionAll
      [("entry", ["c"]), ("A", []), ("B", []), ("C", [])] "C" :=
  ⟨dataflow_fixed_point.1 s4Instrs 20
      [("entry", []), ("A", []), ("B", []), ("C", ["x"])]
      [("entry", []), ("A", ["x"]), ("B", ["x"]), ("C", ["x"])]
      rfl "C" (by decide),
   dataflow_fixed_point.2.1 s4Instrs 20
      [("entry", []), ("A", []), ("B", []), ("C", [])]
      [("entry", []), ("A", [("x", CVal.int 1)]), ("B", [("x", CVal.int 2)]),
       ("C", [])]
      rfl "C" (by decide),
   dataflow_fixed_point.2.2 s4Instrs 20
      [("entry", ["c"]), ("A", []), ("B", []), ("C", [])]
      [("C", []), ("entry", []), ("A", []), ("B", [])]
      rfl "C" (by decide)⟩

/-! ### C1: the constant-propagation merge -/

theorem alookup_dinsert_self {α : Type} (m : List (String × α)) (k : String)
    (v : α) : alookup (dinsert k v m) k = some v := by
  induction m with
  | nil => simp [dinsert]
  | cons hd t ih =>
    obtain ⟨k', v'⟩ := hd
    by_cases hk : k = k'
    · simp [dinsert, hk]
    · by_cases hlt : strLt k k'
      · simp [dinsert, hk, hlt]
      · have : ¬(k' = k) := fun hh => hk hh.symm
        simp [dinsert, hk, hlt, this, ih]

theorem alookup_dinsert_ne {α : Type} (m : List (String × α)) (k c : String)
    (v : α) (h : k ≠ c) : alookup (dinsert k v m) c = alookup m c := by
  induction m with
  | nil => simp [dinsert, h]
  | cons hd t ih =>
    obtain ⟨k', v'⟩ := hd
    by_cases hk : k = k'
    · subst hk
      simp [dinsert, h]
    · by_cases hlt : strLt k k'
      · simp [dinsert, hk, hlt, h]
      · simp [dinsert, hk, hlt, ih]

/-- Inner fold of `dict_intersection` over one dict's pairs. -/
theorem dictInter_inner_preserve (inter : List (String × CVal)) (k : String)
    (v : CVal) (huniq : ∀ v', (k, v') ∈ inter → v' = v) :
    ∀ (pairs : List (String × CVal)) (acc : CDict),
      alookup acc k = some v →
      alookup (pairs.foldl
        (fun res p => if p ∈ inter then dinsert p.1 p.2 res else res) acc) k =
          some v := by
  intro pairs
  induction pairs with
  | nil => intro acc h; simpa
  | cons p t ih =>
    obtain ⟨p1, p2⟩ := p
    intro acc h
    simp only [List.foldl_cons]
    by_cases hp : (p1, p2) ∈ inter
    · rw [if_pos hp]
      by_cases hpk : p1 = k
      · subst hpk
        have hval : p2 = v := huniq p2 hp
        refine ih _ ?_
        simp only [hval]
        exact alookup_dinsert_self acc p1 v
      · exact ih _ (by rw [alookup_dinsert_ne acc p1 k p2 hpk]; exact h)
    · rw [if_neg hp]
      exact ih _ h

theorem dictInter_inner_insert (inter : List (String × CVal)) (k : String)
    (v : CVal) (huniq : ∀ v', (k, v') ∈ inter → v' = v) :
    ∀ (pairs : List (String × CVal)) (acc : CDict),
      (k, v) ∈ pairs → (k, v) ∈ inter →
      alookup (pairs.foldl
        (fun res p => if p ∈ inter then dinsert p.1 p.2 res else res) acc) k =
          some v := by
  intro pairs
  induction pairs with
  | nil => intro acc h; simp at h
  | cons p t ih =>
    intro acc hmem hin
    simp only [List.foldl_cons]
    rcases List.mem_cons.mp hmem with hp | hp
    · subst hp
      rw [if_pos hin]
      exact dictInter_inner_preserve inter k v huniq t _
        (alookup_dinsert_self acc k v)
    · exact ih _ hp hin

/-- Outer fold of `dict_intersection`, preservation. -/
theorem dictInter_outer_preserve (inter : List (String × CVal)) (k : String)
    (v : CVal) (huniq : ∀ v', (k, v') ∈ inter → v' = v) :
    ∀ (ds : List CDict) (acc : CDict),
      alookup acc k = some v →
      alookup (ds.foldl
        (fun res d => d.foldl
          (fun res p => if p ∈ inter then dinsert p.1 p.2 res else res) res)
        acc) k = some v := by
  intro ds
  induction ds with
  | nil => intro acc h; simpa
  | cons d t ih =>
    intro acc h
    simp only [List.foldl_cons]
    exact ih _ (dictInter_inner_preserve inter k v huniq d acc h)

/-- Inner fold of `dict_intersection`, reverse direction: a value read back
out was inserted from a pair of the intersection (or was already there). -/
theorem dictInter_inner_source (inter : List (String × CVal)) (k : String)
    (v : CVal) :
    ∀ (pairs : List (String × CVal)) (acc : CDict),
      alookup (pairs.foldl
        (fun res p => if p ∈ inter then dinsert p.1 p.2 res else res) acc) k =
          some v →
      alookup acc k = some v ∨ (k, v) ∈ inter := by
  intro pairs
  induction pairs with
  | nil => intro acc h; exact Or.inl (by simpa using h)
  | cons p t ih =>
    obtain ⟨p1, p2⟩ := p
    intro acc h
    simp only [List.foldl_cons] at h
    by_cases hp : (p1, p2) ∈ inter
    · rw [if_pos hp] at h
      rcases ih _ h with h1 | h1
      · by_cases hpk : p1 = k
        · subst hpk
          right
          rw [alookup_dinsert_self] at h1
          injection h1 with h1
          rw [← h1]
          exact hp
        · left
          rwa [alookup_dinsert_ne acc p1 k p2 hpk] at h1
      · exact Or.inr h1
    · rw [if_neg hp] at h
      exact ih _ h

theorem dictInter_outer_source (inter : List (String × CVal)) (k : String)
    (v : CVal) :
    ∀ (ds : List CDict) (acc : CDict),
      alookup (ds.foldl
        (fun res d => d.foldl
          (fun res p => if p ∈ inter then dinsert p.1 p.2 res else res) res)
        acc) k = some v →
      alookup acc k = some v ∨ (k, v) ∈ inter := by
  intro ds
  induction ds with
  | nil => intro acc h; exact Or.inl (by simpa using h)
  | cons d t ih =>
    intro acc h
    simp only [List.foldl_cons] at h
    rcases ih _ h with h1 | h1
    · exact dictInter_inner_source inter k v d acc h1
    · exact Or.inr h1

/-- C1 (amended).  `dict_intersection` keeps exactly those key/value pairs
present with the same value in every input dict: a key on which two inputs
disagree is dropped (it is not mapped to UNKNOWN), and a key missing from
some input is dropped (it is not retained). -/
theorem cprop_merge_amended :
    ∀ (ds : List CDict) (k : String) (v : CVal),
      (∀ d ∈ ds, (akeys d).Nodup) →
      (alookup (dictIntersection ds) k = some v ↔
        ds ≠ [] ∧ ∀ d ∈ ds, alookup d k = some v) := by
  intro ds k v hnd
  cases ds with
  | nil => simp [dictIntersection]
  | cons first rest =>
    have hndf : (akeys first).Nodup := hnd first (by simp)
    have huniq : ∀ v', (k, v') ∈ first.filter (fun p => rest.all fun d => p ∈ d) →
        ∀ v'', (k, v'') ∈ first.filter (fun p => rest.all fun d => p ∈ d) →
        v' = v'' := by
      intro v' h' v'' h''
      have h1 := alookup_of_mem_nodup hndf (List.mem_filter.mp h').1
      have h2 := alookup_of_mem_nodup hndf (List.mem_filter.mp h'').1
      exact Option.some.inj (h1.symm.trans h2)
    constructor
    · intro h
      rcases dictInter_outer_source _ k v (first :: rest) [] h with h1 | h1
      · simp at h1
      · have hfirst := (List.mem_filter.mp h1).1
        have hrest := (List.mem_filter.mp h1).2
        refine ⟨by simp, ?_⟩
        intro d hd
        rcases List.mem_cons.mp hd with hd1 | hd1
        · subst hd1
          exact alookup_of_mem_nodup hndf hfirst
        · have : (k, v) ∈ d := by
            have := List.all_eq_true.mp hrest d hd1
            simpa using this
          exact alookup_of_mem_nodup (hnd d hd) this
    · rintro ⟨-, hall⟩
      have hfirst : (k, v) ∈ first := alookup_mem (hall first (by simp))
      have hin : (k, v) ∈ first.filter (fun p => rest.all fun d => p ∈ d) := by
        refine List.mem_filter.mpr ⟨hfirst, ?_⟩
        refine List.all_eq_true.mpr ?_
        intro d hd
        simpa using alookup_mem (hall d (List.mem_cons_of_mem _ hd))
      show alookup (List.foldl _ _ (first :: rest)) k = some v
      simp only [dictIntersection, List.foldl_cons]
      exact dictInter_outer_preserve _ k v
        (fun v' hv' => huniq v' hv' v hin)
        rest _
        (dictInter_inner_insert _ k v (fun v' hv' => huniq v' hv' v hin)
          first [] hfirst hin)

/-- Witness: the amended merge characterization at `{x:1, y:5}` and `{x:1}`. -/
theorem cprop_merge_amended_witness :
    (∀ d ∈ [[("x", CVal.int 1), ("y", CVal.int 5)], [("x", CVal.int 1)]],
        (akeys d).Nodup) ∧
    (alookup (dictIntersection
        [[("x", CVal.int 1), ("y", CVal.int 5)], [("x", CVal.int 1)]]) "x" =
          some (CVal.int 1) ↔
      ([[("x", CVal.int 1), ("y", CVal.int 5)], [("x", CVal.int 1)]] :
          List CDict) ≠ [] ∧
      ∀ d ∈ [[("x", CVal.int 1), ("y", CVal.int 5)], [("x", CVal.int 1)]],
        alookup d "x" = some (CVal.int 1)) :=
  ⟨by decide,
   cprop_merge_amended
     [[("x", CVal.int 1), ("y", CVal.int 5)], [("x", CVal.int 1)]]
     "x" (CVal.int 1) (by decide)⟩

/-- C1 (counterexample).  Two disagreeing OUT maps intersect to the empty
dict, not `{x:UNKNOWN}`; a key missing from one input is dropped, not
retained; and on the S4 program with `B` setting `x=2`, the solver returns
`in[C] = {}` rather than the claimed `{x:UNKNOWN}`. -/
theorem cprop_merge_counterexample :
    dictIntersection [[("x", CVal.int 1)], [("x", CVal.int 2)]] = [] ∧
    dictIntersection [[("x", CVal.int 1)], []] = [] ∧
    solveCprop s4Instrs 20 = some
      ([("entry", []), ("A", []), ("B", []), ("C", [])],
       [("entry", []), ("A", [("x", CVal.int 1)]), ("B", [("x", CVal.int 2)]),
        ("C", [])]) ∧
    alookup [("entry", ([] : CDict)), ("A", []), ("B", []), ("C", [])] "C" =
      some [] ∧
    ([] : CDict) ≠ [("x", CVal.unknown)] := by
  exact ⟨by decide, by decide, rfl, by decide, by decide⟩

/-! ### cs6120/cfg.py : the ControlFlowGraph record -/

/-- The `ControlFlowGraph` of cs6120/cfg.py: ordered blocks plus the
successor and predecessor maps. -/
structure Cfg where
  blocks : List (String × Block)
  succs : List (String × List String)
  preds : List (String × List String)
deriving DecidableEq

/-- `ControlFlowGraph.__init__` followed by `_add_entry`.  `none` models the
`IndexError` raised by `entry` on a function with no blocks.  When the
entry block has predecessors a synthetic block `entry.1` with a single
`jmp` is prepended and the maps are extended exactly as the source does. -/
def mkCfg (instrs : List Instr) : Option Cfg :=
  let blocks := nameBlocks (formBlocks instrs)
  match blocks.head? with
  | none => none
  | some hd =>
    let entry := hd.1
    let succs := getCfg blocks
    let preds := findPredecessors succs
    match alookup preds entry with
    | none => none
    | some ps =>
      if ps.isEmpty then some ⟨blocks, succs, preds⟩
      else
        some ⟨("entry.1", [jmpTo entry]) :: blocks,
              aset succs "entry.1" [entry],
              aset (aset preds "entry.1" []) entry (ps ++ ["entry.1"])⟩

/-! ### cs6120/dom.py -/

/-- Intersection of string sets (kept in the first operand's order). -/
def sinter (a b : List String) : List String := a.filter (· ∈ b)

/-- The body of `get_dom` for one vertex: `{vertex} ∪ ⋂ dom[pred]`, skipped
entirely (the caught `TypeError` of `reduce` on an empty iterable) when the
vertex has no predecessors.  Returns the updated map and whether it
changed; `none` models a `KeyError`. -/
def getDomStep (preds : List (String × List String))
    (dom : List (String × List String)) (vertex : String) :
    Option (List (String × List String) × Bool) :=
  match alookup preds vertex with
  | none => none
  | some ps =>
    match ps with
    | [] => some (dom, false)
    | p0 :: prest =>
      match lookupAll dom (p0 :: prest) with
      | none => none
      | some [] => none
      | some (d0 :: drest) =>
        let newDom := sinsert vertex (drest.foldl sinter d0)
        match alookup dom vertex with
        | none => none
        | some old =>
          if newDom = old then some (dom, false)
          else some (aset dom vertex newDom, true)

/-- One `for vertex in worklist` sweep of `get_dom`. -/
def getDomSweep (preds : List (String × List String)) (wl : List String)
    (dom : List (String × List String)) :
    Option (List (String × List String) × Bool) :=
  ofoldl
    (fun acc v =>
      match getDomStep preds acc.1 v with
      | none => none
      | some (d, c) => some (d, acc.2 || c))
    (dom, false) wl

/-- The `while changed` loop of `get_dom`, with explicit fuel. -/
def getDomLoop (preds : List (String × List String)) (wl : List String) :
    Nat → List (String × List String) → Option (List (String × List String))
  | 0, _ => none
  | fuel + 1, dom =>
    match getDomSweep preds wl dom with
    | none => none
    | some (dom', changed) =>
      if changed then getDomLoop preds wl fuel dom' else some dom'

/-- `get_dom` from cs6120/dom.py: every non-entry block starts at the full
block set, the entry at `{entry}`, and the sweeps shrink the sets to the
greatest fixed point.  Sets are embedded as sorted lists. -/
def getDom (cfg : Cfg) (fuel : Nat) :
    Option (List (String × List String)) :=
  let names := akeys cfg.blocks
  let allSet := names.foldl (fun acc x => sinsert x acc) []
  match names.head? with
  | none => none
  | some entry =>
    let dom0 := aset (names.map fun n => (n, allSet)) entry [entry]
    getDomLoop cfg.preds (names.erase entry) fuel dom0

/-- Insertion into a `strLt`-ascending list (duplicates kept). -/
def sortedInsert (x : String) : List String → List String
  | [] => [x]
  | y :: t => if strLt y x then y :: sortedInsert x t else x :: y :: t

/-- Python `sorted` on strings: ascending by code point. -/
def sortStrings (l : List String) : List String := l.foldr sortedInsert []

/-- The innermost body of `dom_front`: for one `a` drawn from `dom[b]`,
append `c` to `front[a]` when `a ∉ dom[c]` or `a = c` (`none` models the
`KeyError` on a missing map entry). -/
def dfXStep (dom : List (String × List String)) (c : String)
    (front : List (String × List String)) (a : String) :
    Option (List (String × List String)) :=
  match alookup dom c with
  | none => none
  | some domc =>
    if a ∉ domc ∨ a = c then
      match alookup front a with
      | none => none
      | some l => some (aset front a (l ++ [c]))
    else some front

/-- The `for b in preds(c)` body of `dom_front`: iterate `dom[b]`. -/
def dfBStep (dom : List (String × List String)) (c : String)
    (front : List (String × List String)) (b : String) :
    Option (List (String × List String)) :=
  match alookup dom b with
  | none => none
  | some domb => ofoldl (dfXStep dom c) front domb

/-- The `for c in block_names` body of `dom_front`. -/
def dfCStep (cfg : Cfg) (dom : List (String × List String))
    (front : List (String × List String)) (c : String) :
    Option (List (String × List String)) :=
  match alookup cfg.preds c with
  | none => none
  | some ps => ofoldl (dfBStep dom c) front ps

/-- The triple loop of `dom_front`, before sorting: for each block `c`, for
each predecessor `b` of `c`, for each `a` in `dom[b]`, append `c` to
`front[a]` when `a ∉ dom[c]` or `a = c`. -/
def domFrontRaw (cfg : Cfg) (dom : List (String × List String)) :
    Option (List (String × List String)) :=
  ofoldl (dfCStep cfg dom)
    ((akeys cfg.blocks).map fun b => (b, ([] : List String)))
    (akeys cfg.blocks)

/-- `dom_front` from cs6120/dom.py: run `get_dom`, collect the frontier
lists, and sort each list. -/
def domFront (cfg : Cfg) (fuel : Nat) :
    Option (List (String × List String)) :=
  match getDom cfg fuel with
  | none => none
  | some dom =>
    match domFrontRaw cfg dom with
    | none => none
    | some front => some (front.map fun p => (p.1, sortStrings p.2))

/-! ### C7: dominance frontiers may repeat a block -/

/-- A CFG whose block `a` dominates two predecessors (`b` and `c`) of block
`d` without dominating `d`: edges `e→a`, `e→d`, `a→b`, `a→c`, `b→d`,
`c→d`. -/
def c7Instrs : List Instr :=
  [ { noInstr with label := some "e" },
    { noInstr with op := some "br", args := some ["x"], labels := some ["a", "d"] },
    { noInstr with label := some "a" },
    { noInstr with op := some "br", args := some ["y"], labels := some ["b", "c"] },
    { noInstr with label := some "b" },
    { noInstr with op := some "jmp", labels := some ["d"] },
    { noInstr with label := some "c" },
    { noInstr with op := some "jmp", labels := some ["d"] },
    { noInstr with label := some "d" },
    { noInstr with op := some "ret", args := some [] } ]

/-! ### Order facts about the code-point comparison -/

theorem charsLt_irrefl (as : List Char) : charsLt as as = false := by
  induction as with
  | nil => rfl
  | cons a t ih => simp [charsLt, Nat.lt_irrefl, ih]

theorem charsLt_trans {as bs cs : List Char} (h1 : charsLt as bs = true)
    (h2 : charsLt bs cs = true) : charsLt as cs = true := by
  induction as generalizing bs cs with
  | nil =>
    cases bs with
    | nil => exact absurd h1 (by simp [charsLt])
    | cons b bt =>
      cases cs with
      | nil => exact absurd h2 (by simp [charsLt])
      | cons c ct => rfl
  | cons a at_ ih =>
    cases bs with
    | nil => exact absurd h1 (by simp [charsLt])
    | cons b bt =>
      cases cs with
      | nil => exact absurd h2 (by simp [charsLt])
      | cons c ct =>
        simp only [charsLt] at h1 h2 ⊢
        by_cases hab : a.toNat < b.toNat
        · by_cases hbc : b.toNat < c.toNat
          · simp [Nat.lt_trans hab hbc]
          · simp only [if_pos hab, if_neg hbc] at h2 ⊢
            by_cases hcb : c.toNat < b.toNat
            · simp [if_pos hcb] at h2
            · simp only [if_neg hcb] at h2
              have hac : a.toNat < c.toNat := by omega
              simp [hac]
        · simp only [if_neg hab] at h1
          by_cases hba : b.toNat < a.toNat
          · simp [if_pos hba] at h1
          · simp only [if_neg hba] at h1
            by_cases hbc : b.toNat < c.toNat
            · have hac : a.toNat < c.toNat := by omega
              simp [hac]
            · simp only [if_neg hbc] at h2
              by_cases hcb : c.toNat < b.toNat
              · simp [if_pos hcb] at h2
              · simp only [if_neg hcb] at h2
                have hac : ¬(a.toNat < c.toNat) := by omega
                have hca : ¬(c.toNat < a.toNat) := by omega
                simp [hac, hca, ih h1 h2]

theorem charsLt_total (as bs : List Char) :
    charsLt as bs = true ∨ charsLt bs as = true ∨ as = bs := by
  induction as generalizing bs with
  | nil =>
    cases bs with
    | nil => exact Or.inr (Or.inr rfl)
    | cons b bt => exact Or.inl rfl
  | cons a at_ ih =>
    cases bs with
    | nil => exact Or.inr (Or.inl rfl)
    | cons b bt =>
      rcases Nat.lt_trichotomy a.toNat b.toNat with hab | hab | hab
      · exact Or.inl (by simp [charsLt, hab])
      · have hchar : a = b := Char.eq_of_val_eq (UInt32.ext hab)
        subst hchar
        rcases ih bt with h | h | h
        · exact Or.inl (by simp [charsLt, Nat.lt_irrefl, h])
        · exact Or.inr (Or.inl (by simp [charsLt, Nat.lt_irrefl, h]))
        · exact Or.inr (Or.inr (by rw [h]))
      · exact Or.inr (Or.inl (by simp [charsLt, hab]))

theorem strLt_irrefl (a : String) : strLt a a = false := charsLt_irrefl a.data

theorem strLt_trans {a b c : String} (h1 : strLt a b = true)
    (h2 : strLt b c = true) : strLt a c = true := charsLt_trans h1 h2

theorem strLt_asymm {a b : String} (h : strLt a b = true) :
    strLt b a = false := by
  by_contra hc
  have : strLt b a = true := by
    cases hba : strLt b a with
    | true => rfl
    | false => exact absurd hba hc
  have := strLt_trans h this
  rw [strLt_irrefl] at this
  exact absurd this (by simp)

theorem strLt_total (a b : String) :
    strLt a b = true ∨ strLt b a = true ∨ a = b := by
  rcases charsLt_total a.data b.data with h | h | h
  · exact Or.inl h
  · exact Or.inr (Or.inl h)
  · refine Or.inr (Or.inr ?_)
    cases a with
    | mk da =>
      cases b with
      | mk db => simp only [String.data] at h; rw [h]

/-- Transitivity of the non-strict order `strLt _ _ = false`. -/
theorem strLe_trans {a b c : String} (h1 : strLt b a = false)
    (h2 : strLt c b = false) : strLt c a = false := by
  cases hca : strLt c a with
  | false => rfl
  | true =>
    rcases strLt_total a b with h | h | h
    · have hcb := strLt_trans hca h
      rw [hcb] at h2
      exact absurd h2 (by simp)
    · rw [h] at h1
      exact absurd h1 (by simp)
    · subst h
      rw [hca] at h2
      exact absurd h2 (by simp)

theorem strict_sorted_nodup {l : List String}
    (h : l.Pairwise fun a b => strLt a b = true) : l.Nodup := by
  refine h.imp ?_
  intro a b hab heq
  subst heq
  rw [strLt_irrefl] at hab
  exact absurd hab (by simp)

theorem mem_sinsert (x y : String) (l : List String) :
    y ∈ sinsert x l ↔ y = x ∨ y ∈ l := by
  induction l with
  | nil => simp [sinsert]
  | cons z t ih =>
    simp only [sinsert]
    by_cases hxz : x = z
    · subst hxz
      rw [show (if x = x then x :: t
          else if strLt x x then x :: x :: t else x :: sinsert x t) = x :: t by
        simp]
      simp only [List.mem_cons]
      tauto
    · by_cases hlt : strLt x z
      · simp only [if_neg hxz, if_pos hlt, List.mem_cons]
      · simp only [if_neg hxz, if_neg hlt, List.mem_cons, ih]
        tauto

theorem strict_sorted_sinsert (x : String) {l : List String}
    (h : l.Pairwise fun a b => strLt a b = true) :
    (sinsert x l).Pairwise fun a b => strLt a b = true := by
  induction l with
  | nil => simp [sinsert]
  | cons y t ih =>
    rw [List.pairwise_cons] at h
    obtain ⟨hy, ht⟩ := h
    simp only [sinsert]
    by_cases hxz : x = y
    · subst hxz
      rw [show (if x = x then x :: t
          else if strLt x x then x :: x :: t else x :: sinsert x t) = x :: t by
        simp]
      exact List.pairwise_cons.mpr ⟨hy, ht⟩
    · by_cases hlt : strLt x y
      · simp only [if_neg hxz, if_pos hlt, List.pairwise_cons]
        refine ⟨?_, hy, ht⟩
        intro z hz
        rcases List.mem_cons.mp hz with hz | hz
        · subst hz; exact hlt
        · exact strLt_trans hlt (hy z hz)
      · have hyx : strLt y x = true := by
          rcases strLt_total x y with h | h | h
          · rw [h] at hlt; exact absurd rfl hlt
          · exact h
          · exact absurd h hxz
        simp only [if_neg hxz, if_neg hlt, List.pairwise_cons]
        constructor
        · intro z hz
          rcases (mem_sinsert x z t).mp hz with hz | hz
          · subst hz; exact hyx
          · exact hy z hz
        · exact ih ht

theorem perm_sortedInsert (x : String) (l : List String) :
    List.Perm (sortedInsert x l) (x :: l) := by
  induction l with
  | nil => rfl
  | cons y t ih =>
    by_cases h : strLt y x
    · simp only [sortedInsert, if_pos h]
      exact List.Perm.trans (ih.cons y) (List.Perm.swap x y t)
    · simp [sortedInsert, if_neg h]

theorem perm_sortStrings (l : List String) : List.Perm (sortStrings l) l := by
  induction l with
  | nil => rfl
  | cons x t ih =>
    simp only [sortStrings, List.foldr_cons]
    exact List.Perm.trans (perm_sortedInsert _ _) (ih.cons x)

theorem sorted_sortedInsert (x : String) {l : List String}
    (h : l.Pairwise fun a b => strLt b a = false) :
    (sortedInsert x l).Pairwise fun a b => strLt b a = false := by
  induction l with
  | nil => simp [sortedInsert]
  | cons y t ih =>
    rw [List.pairwise_cons] at h
    obtain ⟨hy, ht⟩ := h
    by_cases hlt : strLt y x
    · simp only [sortedInsert, if_pos hlt, List.pairwise_cons]
      constructor
      · intro z hz
        have hz' := (perm_sortedInsert x t).mem_iff.mp hz
        rcases List.mem_cons.mp hz' with hz1 | hz1
        · subst hz1; exact strLt_asymm hlt
        · exact hy z hz1
      · exact ih ht
    · have hxley : strLt y x = false := by
        cases hc : strLt y x with
        | false => rfl
        | true => exact absurd hc hlt
      simp only [sortedInsert, if_neg hlt, List.pairwise_cons]
      refine ⟨?_, hy, ht⟩
      intro z hz
      rcases List.mem_cons.mp hz with hz1 | hz1
      · subst hz1; exact hxley
      · exact strLe_trans hxley (hy z hz1)

theorem sorted_sortStrings (l : List String) :
    (sortStrings l).Pairwise fun a b => strLt b a = false := by
  induction l with
  | nil => simp [sortStrings]
  | cons x t ih => exact sorted_sortedInsert x ih

/-! ### C7: counting machinery -/

/-- The frontier condition at `a` for block `c`: `a ∉ dom[c]` or `a = c`
(false when `dom` lacks `c`; the code only evaluates it when `dom[c]`
exists). -/
def dfCondAt (dom : List (String × List String)) (c a : String) : Bool :=
  match alookup dom c with
  | none => false
  | some domc => decide (a ∉ domc) || decide (a = c)

/-- Block `b` contributes one occurrence of `c` to `DF[a]` when
`a ∈ dom[b]` and the frontier condition holds at `a`. -/
def dfCond (dom : List (String × List String)) (a c : String)
    (b : String) : Bool :=
  match alookup dom b with
  | none => false
  | some domb => decide (a ∈ domb) && dfCondAt dom c a

theorem alookup_map_val {α β : Type} (m : List (String × α)) (f : α → β)
    (A : String) :
    alookup (m.map fun p => (p.1, f p.2)) A = (alookup m A).map f := by
  induction m with
  | nil => rfl
  | cons hd t ih =>
    obtain ⟨k, v⟩ := hd
    by_cases hk : k = A
    · simp [hk]
    · simp [hk, ih]

theorem alookup_map_const {α : Type} (names : List String) (v : α) (k : String) :
    alookup (names.map fun n => (n, v)) k = if k ∈ names then some v else none := by
  induction names with
  | nil => simp
  | cons n t ih =>
    by_cases hk : n = k
    · subst hk
      simp
    · have : ¬(k = n) := fun hh => hk hh.symm
      simp [hk, ih, this]

theorem dfXStep_fold (dom : List (String × List String)) (c : String) :
    ∀ (xs : List String), xs.Nodup →
    ∀ front front', ofoldl (dfXStep dom c) front xs = some front' →
    ∀ A l, alookup front A = some l →
      alookup front' A =
        some (if decide (A ∈ xs) && dfCondAt dom c A then l ++ [c] else l) := by
  intro xs
  induction xs with
  | nil =>
    intro _ front front' h A l hl
    simp only [ofoldl] at h
    injection h with h
    subst h
    simp [hl]
  | cons x t ih =>
    intro hnd front front' h A l hl
    obtain ⟨hxt, hndt⟩ := List.nodup_cons.mp hnd
    simp only [ofoldl] at h
    cases hstep : dfXStep dom c front x with
    | none => simp [hstep] at h
    | some front1 =>
    simp only [hstep] at h
    simp only [dfXStep] at hstep
    cases hdomc : alookup dom c with
    | none => simp [hdomc] at hstep
    | some domc =>
    simp only [hdomc] at hstep
    by_cases hcond : x ∉ domc ∨ x = c
    · rw [if_pos hcond] at hstep
      cases hfx : alookup front x with
      | none => simp [hfx] at hstep
      | some lx =>
      simp only [hfx] at hstep
      injection hstep with hstep
      subst hstep
      by_cases hAx : A = x
      · subst hAx
        have hlx : lx = l := Option.some.inj (hfx.symm.trans hl)
        subst hlx
        have h1 : alookup (aset front A (lx ++ [c])) A = some (lx ++ [c]) :=
          alookup_aset_self front A (lx ++ [c])
        have hres := ih hndt _ _ h A (lx ++ [c]) h1
        rw [hres]
        have hca : dfCondAt dom c A = true := by
          simp only [dfCondAt, hdomc]
          rcases hcond with hc1 | hc1
          · simp [hc1]
          · simp [hc1]
        simp [hxt, hca]
      · have h1 : alookup (aset front x (lx ++ [c])) A = some l := by
          rw [alookup_aset_ne front x A _ fun hh => hAx hh.symm]
          exact hl
        have hres := ih hndt _ _ h A l h1
        rw [hres]
        simp [List.mem_cons, hAx]
    · rw [if_neg hcond] at hstep
      injection hstep with hstep
      subst hstep
      have hres := ih hndt _ _ h A l hl
      rw [hres]
      by_cases hAx : A = x
      · subst hAx
        have hca : dfCondAt dom c A = false := by
          simp only [dfCondAt, hdomc]
          push_neg at hcond
          simp [hcond.1, hcond.2]
        simp [hca, hxt]
      · simp [List.mem_cons, hAx]

theorem dfBStep_fold (dom : List (String × List String)) (c : String)
    (hvals : ∀ b domb, alookup dom b = some domb → domb.Nodup) :
    ∀ (bs : List String) front front',
      ofoldl (dfBStep dom c) front bs = some front' →
    ∀ A l, alookup front A = some l →
      alookup front' A =
        some (l ++ List.replicate (bs.countP (dfCond dom A c)) c) := by
  intro bs
  induction bs with
  | nil =>
    intro front front' h A l hl
    simp only [ofoldl] at h
    injection h with h
    subst h
    simpa
  | cons b t ih =>
    intro front front' h A l hl
    simp only [ofoldl] at h
    cases hstep : dfBStep dom c front b with
    | none => simp [hstep] at h
    | some front1 =>
    simp only [hstep] at h
    simp only [dfBStep] at hstep
    cases hdomb : alookup dom b with
    | none => simp [hdomb] at hstep
    | some domb =>
    simp only [hdomb] at hstep
    have hx := dfXStep_fold dom c domb (hvals b domb hdomb) front front1
      hstep A l hl
    have hres := ih front1 front' h A _ hx
    rw [hres]
    have hcondb : dfCond dom A c b = (decide (A ∈ domb) && dfCondAt dom c A) := by
      simp [dfCond, hdomb]
    by_cases hc : (decide (A ∈ domb) && dfCondAt dom c A) = true
    · have hn : List.countP (dfCond dom A c) (b :: t) =
          List.countP (dfCond dom A c) t + 1 := by
        rw [List.countP_cons, hcondb, hc]
        simp
      rw [hn, if_pos hc, List.append_assoc, List.singleton_append,
        ← List.replicate_succ]
    · have hc' : (decide (A ∈ domb) && dfCondAt dom c A) = false := by
        cases hcc : (decide (A ∈ domb) && dfCondAt dom c A) with
        | false => rfl
        | true => exact absurd hcc hc
      have hn : List.countP (dfCond dom A c) (b :: t) =
          List.countP (dfCond dom A c) t := by
        rw [List.countP_cons, hcondb, hc']
        simp
      rw [hn, if_neg hc]

theorem dfCStep_fold (cfg : Cfg) (dom : List (String × List String))
    (hvals : ∀ b domb, alookup dom b = some domb → domb.Nodup) :
    ∀ (cs : List String) front front',
      ofoldl (dfCStep cfg dom) front cs = some front' →
    ∀ A l, alookup front A = some l →
      ∃ l', alookup front' A = some l' ∧
        ∀ C, l'.count C = l.count C +
          cs.count C * ((alookup cfg.preds C).getD []).countP (dfCond dom A C) := by
  intro cs
  induction cs with
  | nil =>
    intro front front' h A l hl
    simp only [ofoldl] at h
    injection h with h
    subst h
    exact ⟨l, hl, fun C => by simp⟩
  | cons c t ih =>
    intro front front' h A l hl
    simp only [ofoldl] at h
    cases hstep : dfCStep cfg dom front c with
    | none => simp [hstep] at h
    | some front1 =>
    simp only [hstep] at h
    simp only [dfCStep] at hstep
    cases hps : alookup cfg.preds c with
    | none => simp [hps] at hstep
    | some ps =>
    simp only [hps] at hstep
    have hb := dfBStep_fold dom c hvals ps front front1 hstep A l hl
    obtain ⟨l', hl', hcount⟩ := ih front1 front' h A _ hb
    refine ⟨l', hl', ?_⟩
    intro C
    have hcc := hcount C
    rw [List.count_append, List.count_replicate] at hcc
    rw [hcc, List.count_cons]
    by_cases hcC : C = c
    · subst hcC
      rw [hps]
      simp only [Option.getD_some, beq_self_eq_true, if_true]
      ring
    · have h2 : (c == C) = false := by
        simp only [beq_eq_false_iff_ne, ne_eq]
        intro hh
        exact hcC hh.symm
      rw [h2]
      simp

/-! ### C7: sortedness of the dominator sets -/

/-- Every stored dominator set is strictly sorted (hence duplicate-free). -/
def domVals (dom : List (String × List String)) : Prop :=
  ∀ k s, alookup dom k = some s → s.Pairwise fun a b => strLt a b = true

theorem lookupAll_cons_inv {α : Type} {m : List (String × α)} {k : String}
    {t : List String} {v : α} {vs : List α}
    (h : lookupAll m (k :: t) = some (v :: vs)) :
    alookup m k = some v ∧ lookupAll m t = some vs := by
  simp only [lookupAll] at h
  cases h1 : alookup m k with
  | none => simp [h1] at h
  | some v' =>
    cases h2 : lookupAll m t with
    | none => simp [h1, h2] at h
    | some vs' =>
      simp only [h1, h2] at h
      injection h with h
      injection h with ha hb
      exact ⟨congrArg some ha, congrArg some hb⟩

theorem domVals_aset {dom : List (String × List String)} {k : String}
    {v : List String} (h : domVals dom)
    (hv : v.Pairwise fun a b => strLt a b = true) : domVals (aset dom k v) := by
  intro k' s hs
  by_cases hk : k = k'
  · subst hk
    rw [alookup_aset_self] at hs
    injection hs with hs
    subst hs
    exact hv
  · rw [alookup_aset_ne _ _ _ _ hk] at hs
    exact h k' s hs

theorem ss_foldl_sinter {d0 : List String}
    (h : d0.Pairwise fun a b => strLt a b = true) (ds : List (List String)) :
    (ds.foldl sinter d0).Pairwise fun a b => strLt a b = true := by
  induction ds generalizing d0 with
  | nil => simpa
  | cons d t ih => exact ih (List.Pairwise.filter _ h)

theorem ss_foldl_sinsert (ls : List String) :
    ∀ acc, acc.Pairwise (fun a b => strLt a b = true) →
    (ls.foldl (fun acc x => sinsert x acc) acc).Pairwise
      fun a b => strLt a b = true := by
  induction ls with
  | nil => intro acc h; simpa
  | cons x t ih => intro acc h; exact ih _ (strict_sorted_sinsert x h)

theorem getDomStep_vals {preds dom : List (String × List String)} {v : String}
    {dom' : List (String × List String)} {chg : Bool} (h : domVals dom)
    (hstep : getDomStep preds dom v = some (dom', chg)) : domVals dom' := by
  simp only [getDomStep] at hstep
  cases hps : alookup preds v with
  | none => simp [hps] at hstep
  | some ps =>
  simp only [hps] at hstep
  cases ps with
  | nil =>
    injection hstep with hstep
    injection hstep with h1 h2
    subst h1
    exact h
  | cons p0 prest =>
  cases hla : lookupAll dom (p0 :: prest) with
  | none => simp [hla] at hstep
  | some ds =>
  simp only [hla] at hstep
  cases ds with
  | nil => simp at hstep
  | cons d0 drest =>
  obtain ⟨hd0, -⟩ := lookupAll_cons_inv hla
  have hss : (sinsert v (drest.foldl sinter d0)).Pairwise
      fun a b => strLt a b = true :=
    strict_sorted_sinsert v (ss_foldl_sinter (h p0 d0 hd0) drest)
  cases hold : alookup dom v with
  | none => simp [hold] at hstep
  | some old =>
  simp only [hold] at hstep
  by_cases heq : sinsert v (drest.foldl sinter d0) = old
  · rw [if_pos heq] at hstep
    injection hstep with hstep
    injection hstep with h1 h2
    subst h1
    exact h
  · rw [if_neg heq] at hstep
    injection hstep with hstep
    injection hstep with h1 h2
    subst h1
    exact domVals_aset h hss

theorem getDomSweep_vals {preds : List (String × List String)}
    (wl : List String) :
    ∀ (dom : List (String × List String)) (res : _ × Bool), domVals dom →
      getDomSweep preds wl dom = some res → domVals res.1 := by
  simp only [getDomSweep]
  -- generalize over the initial flag
  suffices hgen : ∀ (start : List (String × List String) × Bool)
      (res : List (String × List String) × Bool), domVals start.1 →
      ofoldl (fun acc v =>
        match getDomStep preds acc.1 v with
        | none => none
        | some (d, c) => some (d, acc.2 || c)) start wl = some res →
      domVals res.1 by
    intro dom res h hr
    exact hgen (dom, false) res h hr
  induction wl with
  | nil =>
    intro start res h hr
    simp only [ofoldl] at hr
    injection hr with hr
    subst hr
    exact h
  | cons v t ih =>
    intro start res h hr
    simp only [ofoldl] at hr
    cases hstep : getDomStep preds start.1 v with
    | none => simp [hstep] at hr
    | some dc =>
    obtain ⟨d, c⟩ := dc
    simp only [hstep] at hr
    exact ih (d, start.2 || c) res (getDomStep_vals h hstep) hr

theorem getDomLoop_vals {preds : List (String × List String)}
    {wl : List String} :
    ∀ (fuel : Nat) (dom dom' : List (String × List String)), domVals dom →
      getDomLoop preds wl fuel dom = some dom' → domVals dom' := by
  intro fuel
  induction fuel with
  | zero => intro dom dom' _ h; simp [getDomLoop] at h
  | succ fuel ih =>
    intro dom dom' hv h
    simp only [getDomLoop] at h
    cases hsw : getDomSweep preds wl dom with
    | none => simp [hsw] at h
    | some res =>
    obtain ⟨d1, chg⟩ := res
    simp only [hsw] at h
    have hv1 : domVals d1 := getDomSweep_vals wl dom (d1, chg) hv hsw
    by_cases hc : chg = true
    · rw [if_pos hc] at h
      exact ih d1 dom' hv1 h
    · rw [if_neg hc] at h
      injection h with h
      subst h
      exact hv1

theorem getDom_vals (cfg : Cfg) (fuel : Nat)
    (dom : List (String × List String)) (h : getDom cfg fuel = some dom) :
    domVals dom := by
  simp only [getDom] at h
  cases hent : (akeys cfg.blocks).head? with
  | none => simp [hent] at h
  | some entry =>
  simp only [hent] at h
  refine getDomLoop_vals fuel _ dom ?_ h
  intro k s hs
  by_cases hk : entry = k
  · subst hk
    rw [alookup_aset_self] at hs
    injection hs with hs
    subst hs
    simp
  · rw [alookup_aset_ne _ _ _ _ hk, alookup_map_const] at hs
    by_cases hmem : k ∈ akeys cfg.blocks
    · rw [if_pos hmem] at hs
      injection hs with hs
      subst hs
      exact ss_foldl_sinsert (akeys cfg.blocks) [] (by simp)
    · rw [if_neg hmem] at hs
      exact absurd hs (by simp)

/-- C7 (amended).  `dom_front` returns, for each block `A`, an ascending
list that contains one occurrence of block `C` for every predecessor `B`
of `C` with `A ∈ dom[B]` and (`A ∉ dom[C]` or `A = C`); a block with
several such predecessors therefore appears several times, so `DF[A]` is a
sorted multiset, not the sorted serialization of a set. -/
theorem dom_front_characterization (cfg : Cfg) (fuel : Nat)
    (df : List (String × List String))
    (hnd : (akeys cfg.blocks).Nodup)
    (h : domFront cfg fuel = some df) :
    ∃ dom, getDom cfg fuel = some dom ∧
      ∀ A ∈ akeys cfg.blocks, ∃ l, alookup df A = some l ∧
        l.Pairwise (fun x y => strLt y x = false) ∧
        ∀ C, l.count C =
          if C ∈ akeys cfg.blocks
          then ((alookup cfg.preds C).getD []).countP (dfCond dom A C)
          else 0 := by
  simp only [domFront] at h
  cases hdom : getDom cfg fuel with
  | none => simp [hdom] at h
  | some dom =>
  simp only [hdom] at h
  cases hraw : domFrontRaw cfg dom with
  | none => simp [hraw] at h
  | some front =>
  simp only [hraw] at h
  injection h with h
  subst h
  refine ⟨dom, rfl, ?_⟩
  intro A hA
  have h0 : alookup ((akeys cfg.blocks).map fun b => (b, ([] : List String))) A =
      some [] := by
    rw [alookup_map_const]
    simp [hA]
  have hvals : ∀ b domb, alookup dom b = some domb → domb.Nodup :=
    fun b domb hb => strict_sorted_nodup (getDom_vals cfg fuel dom hdom b domb hb)
  rw [domFrontRaw] at hraw
  obtain ⟨l', hl', hcount⟩ :=
    dfCStep_fold cfg dom hvals (akeys cfg.blocks) _ front hraw A [] h0
  refine ⟨sortStrings l', ?_, sorted_sortStrings l', ?_⟩
  · rw [alookup_map_val, hl']
    rfl
  · intro C
    rw [(perm_sortStrings l').count_eq, hcount C]
    simp only [List.count_nil, Nat.zero_add]
    by_cases hC : C ∈ akeys cfg.blocks
    · rw [if_pos hC, List.count_eq_one_of_mem hnd hC, Nat.one_mul]
    · rw [if_neg hC, List.count_eq_zero_of_not_mem hC, Nat.zero_mul]

/-- The C7 example CFG, as constructed by `ControlFlowGraph` from
`c7Instrs` (the default is never used: `mkCfg` succeeds). -/
def c7Cfg : Cfg := (mkCfg c7Instrs).getD ⟨[], [], []⟩

/-- C7 (counterexample).  On the CFG with edges `e→a`, `e→d`, `a→b`,
`a→c`, `b→d`, `c→d`, block `a` dominates the two predecessors `b` and `c`
of `d` without dominating `d`, and `dom_front` returns
`DF[a] = [d, d]` — block `d` occurs twice, so `DF[a]` is not the
sorted-array serialization of a set. -/
theorem dom_front_counterexample :
    mkCfg c7Instrs = some c7Cfg ∧
    domFront c7Cfg 20 =
      some [("e", []), ("a", ["d", "d"]), ("b", ["d"]), ("c", ["d"]),
            ("d", [])] ∧
    List.count "d" ["d", "d"] = 2 ∧ ¬(["d", "d"] : List String).Nodup := by
  exact ⟨rfl, rfl, rfl, by decide⟩

/-- Witness: the frontier characterization applied to the C7 example. -/
theorem dom_front_characterization_witness :
    (akeys c7Cfg.blocks).Nodup ∧
    (∃ dom, getDom c7Cfg 20 = some dom ∧
      ∀ A ∈ akeys c7Cfg.blocks, ∃ l,
        alookup [("e", ([] : List String)), ("a", ["d", "d"]), ("b", ["d"]),
                 ("c", ["d"]), ("d", [])] A = some l ∧
        l.Pairwise (fun x y => strLt y x = false) ∧
        ∀ C, l.count C =
          if C ∈ akeys c7Cfg.blocks
          then ((alookup c7Cfg.preds C).getD []).countP (dfCond dom A C)
          else 0) :=
  ⟨by decide, dom_front_characterization c7Cfg 20 _ (by decide) rfl⟩

/-! ### C4: removing unreachable blocks (modelled from the spec) -/

/-- An edge of the CFG restricted to existing blocks: `y` is listed among
the successors of `x` and names a block. -/
def cfgEdge (cfg : Cfg) (x y : String) : Prop :=
  y ∈ (alookup cfg.succs x).getD [] ∧ y ∈ akeys cfg.blocks

/-- One expansion step of the forward traversal: add every successor of a
visited block that names a block. -/
def reachStep (succs : List (String × List String)) (names : List String)
    (s : List String) : List String :=
  s.foldl
    (fun acc x =>
      ((alookup succs x).getD []).foldl
        (fun acc y => if y ∈ names then sinsert y acc else acc) acc)
    s

/-- The set of blocks reachable from `entry`; the expansion stabilizes
within `|blocks| + 1` rounds. -/
def reachSet (cfg : Cfg) (entry : String) : List String :=
  (reachStep cfg.succs (akeys cfg.blocks))^[(akeys cfg.blocks).length + 1]
    (sinsert entry [])

/-- Modelled from the spec: `ControlFlowGraph.remove_unreachable_blocks` is
absent from src/cs6120/cfg.py (dom.py and ssa.py call it); the spec says
"keep only blocks reachable from `entry` by forward traversal of
successors; re-derive predecessors". -/
def removeUnreachableBlocks (cfg : Cfg) : Cfg :=
  match (akeys cfg.blocks).head? with
  | none => cfg
  | some entry =>
    let r := reachSet cfg entry
    ⟨cfg.blocks.filter (fun p => p.1 ∈ r),
     cfg.succs.filter (fun p => p.1 ∈ r),
     findPredecessors (cfg.succs.filter (fun p => p.1 ∈ r))⟩

/-- The per-function body of dom.py `main`: construct the
`ControlFlowGraph`, remove unreachable blocks, then run the requested
dominance analysis on the pruned CFG. -/
def domPipeline {α : Type} (analyze : Cfg → Option α) (instrs : List Instr) :
    Option α :=
  match mkCfg instrs with
  | none => none
  | some cfg => analyze (removeUnreachableBlocks cfg)

theorem mem_inner_reach (names : List String) (ys : List String) :
    ∀ (acc : List String) (z : String),
      z ∈ ys.foldl (fun acc y => if y ∈ names then sinsert y acc else acc) acc ↔
        z ∈ acc ∨ (z ∈ ys ∧ z ∈ names) := by
  induction ys with
  | nil => intro acc z; simp
  | cons y t ih =>
    intro acc z
    simp only [List.foldl_cons]
    rw [ih]
    by_cases hy : y ∈ names
    · rw [if_pos hy, mem_sinsert]
      constructor
      · rintro ((h | h) | h)
        · subst h; exact Or.inr ⟨by simp, hy⟩
        · exact Or.inl h
        · exact Or.inr ⟨by simp [h.1], h.2⟩
      · rintro (h | ⟨h1, h2⟩)
        · exact Or.inl (Or.inr h)
        · rcases List.mem_cons.mp h1 with h1 | h1
          · exact Or.inl (Or.inl h1)
          · exact Or.inr ⟨h1, h2⟩
    · rw [if_neg hy]
      constructor
      · rintro (h | h)
        · exact Or.inl h
        · exact Or.inr ⟨by simp [h.1], h.2⟩
      · rintro (h | ⟨h1, h2⟩)
        · exact Or.inl h
        · rcases List.mem_cons.mp h1 with h1 | h1
          · subst h1; exact absurd h2 hy
          · exact Or.inr ⟨h1, h2⟩

theorem mem_outer_reach (succs : List (String × List String))
    (names : List String) (xs : List String) :
    ∀ (acc : List String) (z : String),
      z ∈ xs.foldl
          (fun acc x =>
            ((alookup succs x).getD []).foldl
              (fun acc y => if y ∈ names then sinsert y acc else acc) acc)
          acc ↔
        z ∈ acc ∨ ∃ x ∈ xs, z ∈ (alookup succs x).getD [] ∧ z ∈ names := by
  induction xs with
  | nil => intro acc z; simp
  | cons x t ih =>
    intro acc z
    simp only [List.foldl_cons]
    rw [ih]
    rw [mem_inner_reach]
    constructor
    · rintro ((h | h) | h)
      · exact Or.inl h
      · exact Or.inr ⟨x, by simp, h.1, h.2⟩
      · obtain ⟨x', hx', h1, h2⟩ := h
        exact Or.inr ⟨x', List.mem_cons_of_mem _ hx', h1, h2⟩
    · rintro (h | ⟨x', hx', h1, h2⟩)
      · exact Or.inl (Or.inl h)
      · rcases List.mem_cons.mp hx' with hx1 | hx1
        · subst hx1
          exact Or.inl (Or.inr ⟨h1, h2⟩)
        · exact Or.inr ⟨x', hx1, h1, h2⟩

theorem mem_reachStep (succs : List (String × List String))
    (names : List String) (s : List String) (z : String) :
    z ∈ reachStep succs names s ↔
      z ∈ s ∨ ∃ x ∈ s, z ∈ (alookup succs x).getD [] ∧ z ∈ names := by
  rw [reachStep, mem_outer_reach]

theorem reachStep_superset (succs : List (String × List String))
    (names : List String) (s : List String) :
    s ⊆ reachStep succs names s := by
  intro z hz
  rw [mem_reachStep]
  exact Or.inl hz

theorem ss_inner_reach (names : List String) (ys : List String) :
    ∀ (acc : List String), acc.Pairwise (fun a b => strLt a b = true) →
      (ys.foldl (fun acc y => if y ∈ names then sinsert y acc else acc)
        acc).Pairwise (fun a b => strLt a b = true) := by
  induction ys with
  | nil => intro acc h; simpa
  | cons y t ih =>
    intro acc h
    simp only [List.foldl_cons]
    by_cases hy : y ∈ names
    · rw [if_pos hy]
      exact ih _ (strict_sorted_sinsert y h)
    · rw [if_neg hy]
      exact ih _ h

theorem ss_outer_reach (succs : List (String × List String))
    (names : List String) (xs : List String) :
    ∀ (acc : List String), acc.Pairwise (fun a b => strLt a b = true) →
      (xs.foldl
        (fun acc x =>
          ((alookup succs x).getD []).foldl
            (fun acc y => if y ∈ names then sinsert y acc else acc) acc)
        acc).Pairwise (fun a b => strLt a b = true) := by
  induction xs with
  | nil => intro acc h; simpa
  | cons x t ih =>
    intro acc h
    simp only [List.foldl_cons]
    exact ih _ (ss_inner_reach names _ acc h)

theorem ss_reachStep (succs : List (String × List String))
    (names : List String) (s : List String)
    (h : s.Pairwise fun a b => strLt a b = true) :
    (reachStep succs names s).Pairwise fun a b => strLt a b = true :=
  ss_outer_reach succs names s s h

theorem reachStep_subset_names (succs : List (String × List String))
    (names : List String) (s : List String) (hsub : s ⊆ names) :
    reachStep succs names s ⊆ names := by
  intro z hz
  rw [mem_reachStep] at hz
  rcases hz with h | ⟨x, _, _, h2⟩
  · exact hsub h
  · exact h2

theorem length_lt_of_ne (s s' : List String)
    (hss : s.Pairwise fun a b => strLt a b = true)
    (hss' : s'.Pairwise fun a b => strLt a b = true)
    (hsub : s ⊆ s') (hne : ¬(s' = s)) : s.length < s'.length := by
  have hsp : s.Subperm s' :=
    List.subperm_of_subset (strict_sorted_nodup hss) hsub
  rcases Nat.lt_or_ge s.length s'.length with h | h
  · exact h
  · exfalso
    have hperm : s.Perm s' := hsp.perm_of_length_le h
    haveI : IsAntisymm String (fun a b => strLt a b = true) :=
      ⟨fun a b h1 h2 => by rw [strLt_asymm h1] at h2; exact absurd h2 (by simp)⟩
    exact hne (List.eq_of_perm_of_sorted hperm hss hss').symm

theorem reachStep_iterate_fixed (succs : List (String × List String))
    (names : List String) :
    ∀ (k : Nat) (s : List String), (s.Pairwise fun a b => strLt a b = true) →
      s ⊆ names → names.length + 1 ≤ k + s.length →
      reachStep succs names ((reachStep succs names)^[k] s) =
        (reachStep succs names)^[k] s := by
  intro k
  induction k with
  | zero =>
    intro s hss hsub hlen
    exfalso
    have hle : s.length ≤ names.length :=
      (List.subperm_of_subset (strict_sorted_nodup hss) hsub).length_le
    omega
  | succ k ih =>
    intro s hss hsub hlen
    by_cases hfix : reachStep succs names s = s
    · rw [Function.iterate_fixed hfix]
      exact hfix
    · rw [Function.iterate_succ_apply]
      have hlt : s.length < (reachStep succs names s).length :=
        length_lt_of_ne s _ hss (ss_reachStep _ _ _ hss)
          (reachStep_superset _ _ s) hfix
      exact ih (reachStep succs names s) (ss_reachStep _ _ _ hss)
        (reachStep_subset_names _ _ _ hsub) (by omega)

theorem reachSet_fixed (cfg : Cfg) (entry : String)
    (hent : entry ∈ akeys cfg.blocks) :
    reachStep cfg.succs (akeys cfg.blocks) (reachSet cfg entry) =
      reachSet cfg entry := by
  rw [reachSet]
  refine reachStep_iterate_fixed _ _ _ _ ?_ ?_ ?_
  · simp [sinsert]
  · intro z hz
    rcases (mem_sinsert entry z []).mp hz with h | h
    · subst h; exact hent
    · simp at h
  · simp [sinsert]

theorem subset_reachSet (cfg : Cfg) (entry : String) :
    ∀ i, sinsert entry [] ⊆
      (reachStep cfg.succs (akeys cfg.blocks))^[i] (sinsert entry []) := by
  intro i
  induction i with
  | zero => exact fun z hz => hz
  | succ i ih =>
    rw [Function.iterate_succ_apply']
    exact fun z hz => reachStep_superset _ _ _ (ih hz)

theorem mem_reachSet (cfg : Cfg) (entry : String)
    (hent : entry ∈ akeys cfg.blocks) (b : String) :
    b ∈ reachSet cfg entry ↔ Relation.ReflTransGen (cfgEdge cfg) entry b := by
  constructor
  · suffices h : ∀ i z,
        z ∈ (reachStep cfg.succs (akeys cfg.blocks))^[i] (sinsert entry []) →
        Relation.ReflTransGen (cfgEdge cfg) entry z from fun hb => h _ b hb
    intro i
    induction i with
    | zero =>
      intro z hz
      rcases (mem_sinsert entry z []).mp hz with h | h
      · subst h; exact Relation.ReflTransGen.refl
      · simp at h
    | succ i ih =>
      intro z hz
      rw [Function.iterate_succ_apply', mem_reachStep] at hz
      rcases hz with h | ⟨x, hx, h1, h2⟩
      · exact ih z h
      · exact Relation.ReflTransGen.tail (ih x hx) ⟨h1, h2⟩
  · intro hrtg
    induction hrtg with
    | refl =>
      exact subset_reachSet cfg entry _ (by rw [mem_sinsert]; exact Or.inl rfl)
    | tail h1 h2 ih =>
      rw [← reachSet_fixed cfg entry hent, mem_reachStep]
      exact Or.inr ⟨_, ih, h2.1, h2.2⟩

theorem mem_akeys_filter {α : Type} (m : List (String × α)) (r : List String)
    (b : String) :
    b ∈ akeys (m.filter fun p => p.1 ∈ r) ↔ b ∈ akeys m ∧ b ∈ r := by
  simp only [akeys, List.mem_map]
  constructor
  · rintro ⟨p, hp, hpb⟩
    obtain ⟨hpm, hpr⟩ := List.mem_filter.mp hp
    subst hpb
    exact ⟨⟨p, hpm, rfl⟩, by simpa using hpr⟩
  · rintro ⟨⟨p, hpm, hpb⟩, hbr⟩
    subst hpb
    exact ⟨p, List.mem_filter.mpr ⟨hpm, by simpa using hbr⟩, rfl⟩

/-- C4.  `remove_unreachable_blocks` (modelled from the spec) keeps exactly
the blocks reachable from the entry by forward traversal of successors and
re-derives the predecessor map with `find_predecessors`; the dominance
commands (dom.py `main`) run their analysis on the pruned CFG. -/
theorem remove_unreachable_spec :
    (∀ (cfg : Cfg) (entry : String),
        (akeys cfg.blocks).head? = some entry →
        (∀ b, b ∈ akeys (removeUnreachableBlocks cfg).blocks ↔
            b ∈ akeys cfg.blocks ∧
            Relation.ReflTransGen (cfgEdge cfg) entry b) ∧
        (removeUnreachableBlocks cfg).preds =
          findPredecessors (removeUnreachableBlocks cfg).succs) ∧
    (∀ (instrs : List Instr) (fuel : Nat) (cfg : Cfg), mkCfg instrs = some cfg →
        domPipeline (fun c => getDom c fuel) instrs =
          getDom (removeUnreachableBlocks cfg) fuel ∧
        domPipeline (fun c => domFront c fuel) instrs =
          domFront (removeUnreachableBlocks cfg) fuel) := by
  constructor
  · intro cfg entry hent
    have hmem : entry ∈ akeys cfg.blocks := by
      cases hk : akeys cfg.blocks with
      | nil => rw [hk] at hent; simp at hent
      | cons h t =>
        rw [hk] at hent
        injection hent with hent
        exact hent ▸ List.mem_cons_self h t
    constructor
    · intro b
      simp only [removeUnreachableBlocks, hent]
      rw [mem_akeys_filter, mem_reachSet cfg entry hmem]
    · simp only [removeUnreachableBlocks, hent]
  · intro instrs fuel cfg hcfg
    constructor <;> simp [domPipeline, hcfg]

/-- Witness: the reachability characterization and the dominance pipeline
on the C7 example CFG. -/
theorem remove_unreachable_spec_witness :
    (akeys c7Cfg.blocks).head? = some "e" ∧
    ("d" ∈ akeys (removeUnreachableBlocks c7Cfg).blocks ↔
      "d" ∈ akeys c7Cfg.blocks ∧
      Relation.ReflTransGen (cfgEdge c7Cfg) "e" "d") ∧
    mkCfg c7Instrs = some c7Cfg ∧
    domPipeline (fun c => getDom c 20) c7Instrs =
      getDom (removeUnreachableBlocks c7Cfg) 20 :=
  ⟨rfl, (remove_unreachable_spec.1 c7Cfg "e" rfl).1 "d", rfl,
   (remove_unreachable_spec.2 c7Instrs 20 c7Cfg rfl).1⟩

/-! ### cs6120/lvn.py and lvn/lvn.py : local value numbering -/

/-- Generic association-list lookup (for the LVN tables keyed by values or
row numbers). -/
def glookup {κ α : Type} [DecidableEq κ] (m : List (κ × α)) (k : κ) :
    Option α :=
  match m with
  | [] => none
  | (k', v) :: t => if k' = k then some v else glookup t k

/-- Generic association-list update (existing key keeps its position). -/
def gset {κ α : Type} [DecidableEq κ] (m : List (κ × α)) (k : κ) (v : α) :
    List (κ × α) :=
  match m with
  | [] => [(k, v)]
  | (k', v') :: t => if k' = k then (k, v) :: t else (k', v') :: gset t k v

/-- An LVN operand: the row number of the defining entry, or the raw
variable name when defined outside the block. -/
inductive VOperand where
  | num (n : Nat)
  | var (s : String)
deriving DecidableEq

/-- The payload of a `Value` tuple: `(literal, type)` for `const`, the
operand tuple for everything else. -/
inductive VArgs where
  | consts (v : Lit) (ty : String)
  | rows (l : List VOperand)
deriving DecidableEq

/-- The `Value` namedtuple of lvn.py. -/
structure Value where
  op : String
  args : VArgs
deriving DecidableEq

/-- `str(x)` as used by the commutative-operand sort key. -/
def voKey : VOperand → String
  | VOperand.num n => toString n
  | VOperand.var s => s

/-- Stable insertion by string key (Python `sorted(..., key=str)`). -/
def voInsert (x : VOperand) : List VOperand → List VOperand
  | [] => [x]
  | y :: t => if strLt (voKey y) (voKey x) then y :: voInsert x t else x :: y :: t

def voSort (l : List VOperand) : List VOperand := l.foldr voInsert []

/-- `has_side_effect` from cs6120/lvn.py (and lvn/lvn.py): only the exact
symbol `call` counts. -/
def hasSideEffect (op : String) : Bool := op = "call"

/-- `is_commutative` from cs6120/lvn.py. -/
def COMMUTATIVE : List String := ["add", "mul", "eq", "and", "or"]

def isCommutative (op : String) : Bool := op ∈ COMMUTATIVE

/-- `is_commutative` from lvn/lvn.py: the tuple lists `add` twice and
lacks `and`. -/
def COMMUTATIVE_OLD : List String := ["add", "mul", "eq", "add", "or"]

def isCommutativeOld (op : String) : Bool := op ∈ COMMUTATIVE_OLD

/-- `extract_value_repr` from cs6120/lvn.py.  `none` models a `KeyError` /
`IndexError` on a missing field.  For calls the callee name is appended to
the op symbol before the commutativity test. -/
def extractValueRepr (instr : Instr) (var2num : List (String × Nat)) :
    Option Value :=
  match instr.op with
  | none => none
  | some op0 =>
    if op0 = "const" then
      match instr.value, instr.type with
      | some v, some ty => some ⟨"const", VArgs.consts v ty⟩
      | _, _ => none
    else
      match (match instr.funcs with
             | none => some op0
             | some [] => none
             | some (f :: _) => some (op0 ++ f)) with
      | none => none
      | some op =>
        match instr.args with
        | none => none
        | some args =>
          let rows : List VOperand := args.map fun a =>
            match alookup var2num a with
            | some n => VOperand.num n
            | none => VOperand.var a
          some ⟨op, VArgs.rows (if isCommutative op then voSort rows else rows)⟩

/-- `rename_args_between` applied while scanning for a reassignment of
`dest`: rename `dest` to `newName` in the args of every instruction up to
and including the first one that redefines `dest`; `none` when no later
instruction redefines it. -/
def renameLoop (dest newName : String) : List Instr → Option (List Instr)
  | [] => none
  | i :: rest =>
    let i' := { i with
      args := i.args.map (·.map fun a => if a = dest then newName else a) }
    if i.dest = some dest then some (i' :: rest)
    else
      match renameLoop dest newName rest with
      | none => none
      | some rest' => some (i' :: rest')

/-- `rename_if_will_be_reassigned` from cs6120/lvn.py: returns the (possibly
fresh) destination name together with the updated later instructions. -/
def renameIfReassigned (dest : String) (later : List Instr) (n : Nat) :
    String × List Instr :=
  match renameLoop dest (dest ++ "." ++ toString n) later with
  | none => (dest, later)
  | some later' => (dest ++ "." ++ toString n, later')

/-- The LVN tables of cs6120/lvn.py. -/
structure LvnState where
  val2var : List (Value × String)
  var2num : List (String × Nat)
  num2var : List (Nat × String)
  rowNum : Nat
  lvnNumber : Nat

/-- `replace_args_with_canonical` from cs6120/lvn.py: an arg defined in
this block is replaced by the canonical variable of its row. -/
def replaceArgsWithCanonical (s : LvnState) (instr : Instr) : Option Instr :=
  match instr.args with
  | none => some instr
  | some args =>
    match args.mapM (fun a =>
        match alookup s.var2num a with
        | none => some a
        | some r => glookup s.num2var r) with
    | none => none
    | some args' => some { instr with args := some args' }

/-- One iteration of the cs6120/lvn.py block loop with constant
propagation disabled (the `if cprop:` branches are not taken).  Returns
the rewritten instruction, the (possibly renamed) rest of the block and
the updated tables. -/
def lvnStep (s : LvnState) (instr : Instr) (rest : List Instr) :
    Option (Instr × List Instr × LvnState) :=
  if instr.label.isSome then some (instr, rest, s)
  else
    match instr.dest with
    | none =>
      match replaceArgsWithCanonical s instr with
      | none => none
      | some i' => some (i', rest, s)
    | some dest0 =>
      -- the synthetic row for an `id` of an external variable
      match (if instr.op = some "id" then
               match instr.args with
               | none => none
               | some [] => none
               | some (arg :: _) =>
                 if (alookup s.var2num arg).isNone ∧
                     ¬(instr :: rest).any (fun li => li.dest = some arg) then
                   some { s with
                     val2var := gset s.val2var
                       ⟨"id", VArgs.rows [VOperand.num s.rowNum]⟩ arg,
                     var2num := aset s.var2num arg s.rowNum,
                     num2var := gset s.num2var s.rowNum arg,
                     rowNum := s.rowNum + 1 }
                 else some s
             else some s) with
      | none => none
      | some s1 =>
      match replaceArgsWithCanonical s1 instr with
      | none => none
      | some i1 =>
      match extractValueRepr i1 s1.var2num with
      | none => none
      | some val =>
      match glookup s1.val2var val with
      | some canon =>
        if hasSideEffect val.op then
          -- (value seen before, but the op has side effects: new row)
          lvnNewValue s1 i1 val dest0 rest
        else
          match alookup s1.var2num canon with
          | none => none
          | some theRow =>
            let i2 := if val.op ≠ "const" then
                { i1 with op := some "id", args := some [canon] }
              else i1
            some (i2, rest,
              { s1 with var2num := aset s1.var2num dest0 theRow })
      | none => lvnNewValue s1 i1 val dest0 rest
where
  /-- The new-value branch: rename a to-be-reassigned dest, allocate or
  share a row, and record the canonical variable. -/
  lvnNewValue (s1 : LvnState) (i1 : Instr) (val : Value) (dest0 : String)
      (rest : List Instr) : Option (Instr × List Instr × LvnState) :=
    let dr := renameIfReassigned dest0 rest s1.lvnNumber
    let dest := dr.1
    let rest' := dr.2
    let lvn' := if dest ≠ dest0 then s1.lvnNumber + 1 else s1.lvnNumber
    let i2 := if dest ≠ dest0 then { i1 with dest := some dest } else i1
    match (if val.op = "id" then
             match i2.args with
             | none => none
             | some [] => none
             | some (a0 :: _) =>
               match alookup s1.var2num a0 with
               | some r => some (some r)
               | none => some none
           else some none : Option (Option Nat)) with
    | none => none
    | some (some theRow) =>
      -- copy propagation: share the argument's row
      match glookup s1.num2var theRow with
      | none => none
      | some canon =>
        some (i2, rest',
          { s1 with
            val2var := gset s1.val2var val canon,
            var2num := aset s1.var2num dest theRow,
            lvnNumber := lvn' })
    | some none =>
      let theRow := s1.rowNum
      let num2var' := gset s1.num2var theRow dest
      match glookup num2var' theRow with
      | none => none
      | some canon =>
        some (i2, rest',
          { s1 with
            val2var := gset s1.val2var val canon,
            var2num := aset s1.var2num dest theRow,
            num2var := num2var',
            rowNum := s1.rowNum + 1,
            lvnNumber := lvn' })

/-- The per-block loop of cs6120/lvn.py `lvn` (without `-c`).  The fuel is
the block length: renaming keeps the length of the remaining instructions,
so the loop always visits exactly one instruction per unit of fuel. -/
def lvnBlockGo : Nat → LvnState → List Instr → Option (List Instr)
  | _, _, [] => some []
  | 0, _, _ :: _ => none
  | fuel + 1, s, instr :: rest =>
    match lvnStep s instr rest with
    | none => none
    | some (i', rest', s') =>
      match lvnBlockGo fuel s' rest' with
      | none => none
      | some out => some (i' :: out)

/-- cs6120/lvn.py on one named block, constant propagation disabled. -/
def lvnBlockNoCprop (b : Block) : Option Block :=
  lvnBlockGo b.length ⟨[], [], [], 0, 0⟩ b

/-! #### lvn/lvn.py : the older standalone LVN -/

/-- `extract` of the non-const case in lvn/lvn.py lines 74-91.  The sorted
operand tuple computed on line 90 is immediately overwritten by line 91,
so the commutative canonicalization has no effect; the embedding therefore
returns the unsorted operand tuple. -/
def extractValueOld (instr : Instr) (var2num : List (String × Nat)) :
    Option Value :=
  match instr.op with
  | none => none
  | some op0 =>
    match (match instr.funcs with
           | none => some op0
           | some [] => none
           | some (f :: _) => some (op0 ++ f)) with
    | none => none
    | some op =>
      match instr.args with
      | none => none
      | some args =>
        let rows : List VOperand := args.map fun a =>
          match alookup var2num a with
          | some n => VOperand.num n
          | none => VOperand.var a
        -- line 90: `Value(*sorted(row_nums, key=str))` is computed (when
        -- `is_commutative`) and discarded by line 91's `Value(op, row_nums)`
        some ⟨op, VArgs.rows rows⟩

/-- The tables of lvn/lvn.py: `val2var` maps a value to the canonical
variable paired with its row number. -/
structure OldLvnState where
  val2var : List (Value × (String × Nat))
  var2num : List (String × Nat)
  lvnNumber : Nat
  rowNum : Nat

/-- `replace_args_with_canonical` from lvn/lvn.py: the canonical variable
comes from `list(val2var.values())[row]`. -/
def replaceArgsOld (s : OldLvnState) (instr : Instr) : Option Instr :=
  match instr.args with
  | none => some instr
  | some args =>
    match args.mapM (fun a =>
        match alookup s.var2num a with
        | none => some a
        | some r =>
          match (s.val2var.map (·.2))[r]? with
          | none => none
          | some p => some p.1) with
    | none => none
    | some args' => some { instr with args := some args' }

/-- One iteration of the lvn/lvn.py block loop. -/
def oldLvnStep (s : OldLvnState) (instr : Instr) (rest : List Instr) :
    Option (Instr × List Instr × OldLvnState) :=
  if instr.label.isSome then some (instr, rest, s)
  else
    match instr.dest with
    | none =>
      match replaceArgsOld s instr with
      | none => none
      | some i' => some (i', rest, s)
    | some dest0 =>
      match (if instr.op = some "const" then
               match instr.value, instr.type with
               | some v, some ty => some (⟨"const", VArgs.consts v ty⟩ : Value)
               | _, _ => none
             else extractValueOld instr s.var2num) with
      | none => none
      | some val =>
      match glookup s.val2var val with
      | some vr =>
        if hasSideEffect val.op then oldLvnNewValue s instr val dest0 rest
        else
          let i2 := if val.op ≠ "const" then
              { instr with op := some "id", args := some [vr.1] }
            else instr
          some (i2, rest, { s with var2num := aset s.var2num dest0 vr.2 })
      | none => oldLvnNewValue s instr val dest0 rest
where
  oldLvnNewValue (s : OldLvnState) (instr : Instr) (val : Value)
      (dest0 : String) (rest : List Instr) :
      Option (Instr × List Instr × OldLvnState) :=
    let dr := renameIfReassigned dest0 rest s.lvnNumber
    let dest := dr.1
    let rest' := dr.2
    let lvn' := if dest ≠ dest0 then s.lvnNumber + 1 else s.lvnNumber
    let i2 := if dest ≠ dest0 then { instr with dest := some dest } else instr
    let theRow := s.rowNum
    let s1 : OldLvnState :=
      { val2var := gset s.val2var val (dest, theRow),
        var2num := s.var2num,
        lvnNumber := lvn',
        rowNum := s.rowNum + 1 }
    match replaceArgsOld s1 i2 with
    | none => none
    | some i3 =>
      some (i3, rest', { s1 with var2num := aset s1.var2num dest theRow })

def oldLvnBlockGo : Nat → OldLvnState → List Instr → Option (List Instr)
  | _, _, [] => some []
  | 0, _, _ :: _ => none
  | fuel + 1, s, instr :: rest =>
    match oldLvnStep s instr rest with
    | none => none
    | some (i', rest', s') =>
      match oldLvnBlockGo fuel s' rest' with
      | none => none
      | some out => some (i' :: out)

/-- lvn/lvn.py on one block. -/
def oldLvnBlock (b : Block) : Option Block :=
  oldLvnBlockGo b.length ⟨[], [], 0, 0⟩ b

/-! ### C10: the solver leaves the instruction records unchanged

The instruction records of a function are Python dict objects shared by
reference: `form_blocks` builds fresh block lists whose entries alias the
records of `func["instrs"]`.  To make mutation observable, the records are
placed in an explicit store addressed by position; every read goes through
`hget` and the one write on the whole `DataFlowSolver._solve` path — the
allocation of a synthetic terminator dict literal in `add_terminators` —
goes through `halloc`, which only appends.  The solver then provably
returns a store extending its input, i.e. no pre-existing record (and in
particular no record of the function's instruction list) is changed. -/

/-- The store of instruction records, addressed by position. -/
abbrev Heap := List Instr

/-- A basic block as a list of record addresses. -/
abbrev HBlock := List Nat

/-- A read of the record at address `a` (`none` for a dangling address,
which never arises for addresses enumerated from the store). -/
def hget (h : Heap) (a : Nat) : Option Instr := h[a]?

/-- Allocation of a fresh record (a Python dict literal): the store grows
at the end and no existing address is touched. -/
def halloc (h : Heap) (i : Instr) : Heap × Nat := (h ++ [i], h.length)

/-- `form_blocks` over record addresses: as `formBlocksGo`, with the
label/terminator tests reading each record through the store. -/
def formBlocksGoH (h : Heap) (cur : HBlock) : List Nat → Option (List HBlock)
  | [] => some (if cur.isEmpty then [] else [cur])
  | a :: rest =>
    match hget h a with
    | none => none
    | some i =>
      if isLabel i then
        if cur.isEmpty then formBlocksGoH h [a] rest
        else (formBlocksGoH h [a] rest).map (cur :: ·)
      else
        if i.op.getD "" ∈ TERMINATORS then
          (formBlocksGoH h [] rest).map ((cur ++ [a]) :: ·)
        else formBlocksGoH h (cur ++ [a]) rest

def formBlocksH (h : Heap) (body : List Nat) : Option (List HBlock) :=
  formBlocksGoH h [] body

/-- The naming loop of `name_blocks` over record addresses: the
`block[0]["label"]` read goes through the store. -/
def nameBlocksGoH (h : Heap) (acc : List (String × HBlock)) (next : Nat) :
    List HBlock → Option (List (String × HBlock))
  | [] => some acc
  | b :: rest =>
    match b.head? with
    | some a =>
      match hget h a with
      | none => none
      | some i =>
        match i.label with
        | some name => nameBlocksGoH h (aset acc name b.tail) next rest
        | none =>
          nameBlocksGoH h (aset acc ("b" ++ toString next) b) (next + 1) rest
    | none => nameBlocksGoH h (aset acc ("b" ++ toString next) b) (next + 1) rest

/-- `not block or block[-1]["op"] not in TERMINATORS`, negated, reading
`block[-1]` through the store. -/
def endsWithTerminatorH (h : Heap) (b : HBlock) : Option Bool :=
  match b.getLast? with
  | none => some false
  | some a => (hget h a).map (fun i => i.op.getD "" ∈ TERMINATORS)

/-- `add_terminators` over record addresses: the appended `jmp`/`ret` is a
fresh dict literal, so it is allocated in the store and its address is
appended to the (function-local) block list. -/
def addTerminatorsH (h : Heap) :
    List (String × HBlock) → Option (List (String × HBlock) × Heap)
  | [] => some ([], h)
  | [(n, b)] =>
    match endsWithTerminatorH h b with
    | none => none
    | some true => some ([(n, b)], h)
    | some false =>
      let alloc := halloc h retVoid
      some ([(n, b ++ [alloc.2])], alloc.1)
  | (n, b) :: (n2, b2) :: rest =>
    match endsWithTerminatorH h b with
    | none => none
    | some et =>
      let alloc := halloc h (jmpTo n2)
      let hb := if et then (h, b) else (alloc.1, b ++ [alloc.2])
      match addTerminatorsH hb.1 ((n2, b2) :: rest) with
      | none => none
      | some (rest1, h2) => some ((n, hb.2) :: rest1, h2)

/-- Resolve every address of every block through the store.  After
`add_terminators` the solver performs no further write, so `get_cfg`, the
transfer functions and the worklist loop read fixed records; the embedding
resolves them once and reuses the record-level definitions. -/
def materialize (h : Heap) (bs : List (String × HBlock)) :
    Option (List (String × Block)) :=
  bs.mapM fun p => (p.2.mapM (hget h)).map (fun blk => (p.1, blk))

/-- `DataFlowSolver._solve` threading the record store: block formation and
naming read through the store, `add_terminators` allocates in it, and the
final store is returned alongside the IN/OUT maps. -/
def dfSolveH {T : Type} [DecidableEq T] (h : Heap) (addrs : List Nat)
    (backward : Bool) (init : T) (transfer : Block → T → Option T)
    (merge : List T → T) (fuel : Nat) :
    Option ((List (String × T) × List (String × T)) × Heap) :=
  match formBlocksH h addrs with
  | none => none
  | some bs =>
    match nameBlocksGoH h [] 0 bs with
    | none => none
    | some named =>
      match addTerminatorsH h named with
      | none => none
      | some (blocksA, h1) =>
        match materialize h1 blocksA with
        | none => none
        | some blocks =>
          let succs0 := getCfg blocks
          let preds0 := findPredecessors succs0
          match (if backward then (akeys blocks).getLast?
                 else (akeys blocks).head?) with
          | none => none
          | some entry =>
            let ins0 : List (String × T) := [(entry, init)]
            let outs0 : List (String × T) := blocks.map fun p => (p.1, init)
            let sp := if backward then (preds0, succs0) else (succs0, preds0)
            match dfLoop blocks sp.1 sp.2 transfer merge fuel ins0 outs0
                (akeys blocks) with
            | none => none
            | some (ins, outs) =>
              if ins.length = outs.length then
                some ((if backward then (outs, ins) else (ins, outs)), h1)
              else none

/-- `Analysis.DEFINED` through the store. -/
def solveDefinedH (h : Heap) (addrs : List Nat) (fuel : Nat) :
    Option ((List (String × List String) × List (String × List String)) ×
      Heap) :=
  dfSolveH h addrs false [] (fun b s => some (definedOut b s)) setUnionAll fuel

/-- `Analysis.CPROP` through the store. -/
def solveCpropH (h : Heap) (addrs : List Nat) (fuel : Nat) :
    Option ((List (String × CDict) × List (String × CDict)) × Heap) :=
  dfSolveH h addrs false [] cpropOut dictIntersection fuel

/-- `Analysis.LIVE` through the store. -/
def solveLiveH (h : Heap) (addrs : List Nat) (fuel : Nat) :
    Option ((List (String × List String) × List (String × List String)) ×
      Heap) :=
  dfSolveH h addrs true [] (fun b s => some (liveIn b s)) setUnionAll fuel

theorem addTerminatorsH_extends :
    ∀ (bs : List (String × HBlock)) (h h2 : Heap)
      (out : List (String × HBlock)),
      addTerminatorsH h bs = some (out, h2) → ∃ ext, h2 = h ++ ext := by
  intro bs
  induction bs with
  | nil =>
    intro h h2 out he
    simp only [addTerminatorsH] at he
    have hh : h2 = h := (congrArg Prod.snd (Option.some.inj he)).symm
    exact ⟨[], by rw [hh, List.append_nil]⟩
  | cons hd tl ih =>
    intro h h2 out he
    obtain ⟨n, b⟩ := hd
    match tl with
    | [] =>
      cases het : endsWithTerminatorH h b with
      | none =>
        simp only [addTerminatorsH, het] at he
        exact Option.noConfusion he
      | some et =>
        cases et with
        | true =>
          simp only [addTerminatorsH, het] at he
          have hh : h2 = h := (congrArg Prod.snd (Option.some.inj he)).symm
          exact ⟨[], by rw [hh, List.append_nil]⟩
        | false =>
          simp only [addTerminatorsH, het, halloc] at he
          exact ⟨[retVoid], (congrArg Prod.snd (Option.some.inj he)).symm⟩
    | (n2, b2) :: rest =>
      cases het : endsWithTerminatorH h b with
      | none =>
        simp only [addTerminatorsH, het] at he
        exact Option.noConfusion he
      | some et =>
        simp only [addTerminatorsH, het] at he
        cases hrec : addTerminatorsH
            (if et then (h, b) else ((halloc h (jmpTo n2)).1,
              b ++ [(halloc h (jmpTo n2)).2])).1 ((n2, b2) :: rest) with
        | none =>
          simp only [hrec] at he
          exact Option.noConfusion he
        | some p =>
          obtain ⟨rest1, h3⟩ := p
          simp only [hrec] at he
          have hh : h2 = h3 := (congrArg Prod.snd (Option.some.inj he)).symm
          obtain ⟨ext, hext⟩ := ih _ h3 rest1 hrec
          cases et with
          | true =>
            simp only [if_pos] at hext
            exact ⟨ext, by rw [hh, hext]⟩
          | false =>
            simp [halloc] at hext
            exact ⟨jmpTo n2 :: ext, by rw [hh, hext]⟩

theorem dfSolveH_extends {T : Type} [inst : DecidableEq T] (h : Heap)
    (addrs : List Nat) (backward : Bool) (init : T)
    (transfer : Block → T → Option T) (merge : List T → T) (fuel : Nat)
    (r : List (String × T) × List (String × T)) (h2 : Heap)
    (he : dfSolveH h addrs backward init transfer merge fuel = some (r, h2)) :
    ∃ ext, h2 = h ++ ext := by
  unfold dfSolveH at he
  cases hfb : formBlocksH h addrs with
  | none => simp only [hfb] at he; exact Option.noConfusion he
  | some bs =>
  simp only [hfb] at he
  cases hnb : nameBlocksGoH h [] 0 bs with
  | none => simp only [hnb] at he; exact Option.noConfusion he
  | some named =>
  simp only [hnb] at he
  cases hat : addTerminatorsH h named with
  | none => simp only [hat] at he; exact Option.noConfusion he
  | some p =>
  obtain ⟨blocksA, h1⟩ := p
  simp only [hat] at he
  cases hm : materialize h1 blocksA with
  | none => simp only [hm] at he; exact Option.noConfusion he
  | some blocks =>
  simp only [hm] at he
  cases hent : (if backward then (akeys blocks).getLast?
                else (akeys blocks).head?) with
  | none => simp only [hent] at he; exact Option.noConfusion he
  | some entry =>
  simp only [hent] at he
  cases hloop : dfLoop blocks
      (if backward then (findPredecessors (getCfg blocks), getCfg blocks)
       else (getCfg blocks, findPredecessors (getCfg blocks))).1
      (if backward then (findPredecessors (getCfg blocks), getCfg blocks)
       else (getCfg blocks, findPredecessors (getCfg blocks))).2
      transfer merge fuel [(entry, init)] (blocks.map fun p => (p.1, init))
      (akeys blocks) with
  | none => simp only [hloop] at he; exact Option.noConfusion he
  | some q =>
  obtain ⟨ins, outs⟩ := q
  simp only [hloop] at he
  by_cases hlen : ins.length = outs.length
  · rw [if_pos hlen] at he
    have hh : h2 = h1 := (congrArg Prod.snd (Option.some.inj he)).symm
    exact hh ▸ addTerminatorsH_extends named h h1 blocksA hat
  · rw [if_neg hlen] at he
    exact Option.noConfusion he

/-- C10 (confirmed).  `DataFlowSolver.solve` is read-only on the
function's instructions: for each of the three analyses, whenever the
store-threaded solver returns, the returned store extends the input store,
so every pre-existing instruction record — in particular every record of
the function's instruction list — is unchanged (the only store write on
the whole path is `add_terminators` allocating a fresh synthetic
terminator). -/
theorem dataflow_read_only :
    ∀ (h : Heap) (addrs : List Nat) (fuel : Nat),
      (∀ r hD, solveDefinedH h addrs fuel = some (r, hD) →
        (∃ ext, hD = h ++ ext) ∧
          ∀ a, a < h.length → hget hD a = hget h a) ∧
      (∀ r hC, solveCpropH h addrs fuel = some (r, hC) →
        (∃ ext, hC = h ++ ext) ∧
          ∀ a, a < h.length → hget hC a = hget h a) ∧
      (∀ r hL, solveLiveH h addrs fuel = some (r, hL) →
        (∃ ext, hL = h ++ ext) ∧
          ∀ a, a < h.length → hget hL a = hget h a) := by
  have key : ∀ (h h2 : Heap), (∃ ext, h2 = h ++ ext) →
      (∃ ext, h2 = h ++ ext) ∧ ∀ a, a < h.length → hget h2 a = hget h a := by
    intro h h2 hx
    refine ⟨hx, ?_⟩
    obtain ⟨ext, rfl⟩ := hx
    intro a ha
    simp [hget, List.getElem?_append, ha]
  intro h addrs fuel
  refine ⟨fun r hD he => key h hD ?_, fun r hC he => key h hC ?_,
    fun r hL he => key h hL ?_⟩
  · exact dfSolveH_extends h addrs false [] _ setUnionAll fuel r hD he
  · exact dfSolveH_extends h addrs false [] cpropOut dictIntersection fuel
      r hC he
  · exact dfSolveH_extends h addrs true [] _ setUnionAll fuel r hL he

/-- Witness: the read-only theorem applied to the S4 program for each of
the three analyses.  The S4 blocks all end in terminators, so nothing is
allocated and every returned store is literally the input store. -/
theorem dataflow_read_only_witness :
    ((∃ ext, s4Instrs = s4Instrs ++ ext) ∧
      ∀ a, a < s4Instrs.length → hget s4Instrs a = hget s4Instrs a) ∧
    ((∃ ext, s4Instrs = s4Instrs ++ ext) ∧
      ∀ a, a < s4Instrs.length → hget s4Instrs a = hget s4Instrs a) ∧
    ((∃ ext, s4Instrs = s4Instrs ++ ext) ∧
      ∀ a, a < s4Instrs.length → hget s4Instrs a = hget s4Instrs a) :=
  ⟨(dataflow_read_only s4Instrs (List.range 10) 20).1
      ([("entry", []), ("A", []), ("B", []), ("C", ["x"])],
       [("entry", []), ("A", ["x"]), ("B", ["x"]), ("C", ["x"])])
      s4Instrs rfl,
   (dataflow_read_only s4Instrs (List.range 10) 20).2.1
      ([("entry", []), ("A", []), ("B", []), ("C", [])],
       [("entry", []), ("A", [("x", CVal.int 1)]), ("B", [("x", CVal.int 2)]),
        ("C", [])])
      s4Instrs rfl,
   (dataflow_read_only s4Instrs (List.range 10) 20).2.2
      ([("entry", ["c"]), ("A", []), ("B", []), ("C", [])],
       [("C", []), ("entry", []), ("A", []), ("B", [])])
      s4Instrs rfl⟩

/-! ### C2: a repeated call is treated as redundant -/

def callInstr (d : String) : Instr :=
  { noInstr with op := some "call", dest := some d, type := some "int",
                 funcs := some ["foo"], args := some ["a"] }

/-- C2 (code-bug evaluation).  On a block with two identical calls
`x = call @foo a; y = call @foo a`, cs6120/lvn.py rewrites the second call
to `y = id x`: `extract_value_repr` appends the callee to the op symbol
(`callfoo`), so `has_side_effect`, which tests the exact symbol `call`,
never fires for a real call and the redundancy guard is defeated. -/
theorem lvn_call_treated_redundant :
    lvnBlockNoCprop [callInstr "x", callInstr "y"] =
      some [callInstr "x",
            { noInstr with op := some "id", dest := some "y",
                           type := some "int", funcs := some ["foo"],
                           args := some ["x"] }] ∧
    hasSideEffect "call" = true ∧ hasSideEffect "callfoo" = false := by
  exact ⟨rfl, rfl, rfl⟩

/-! ### C9: the older LVN discards the commutative sort -/

def addInstr (d a1 a2 : String) : Instr :=
  { noInstr with op := some "add", dest := some d, type := some "int",
                 args := some [a1, a2] }

/-- C9 (code-bug evaluation).  On `x = add a b; y = add b a`, lvn/lvn.py
leaves the second add unchanged: line 90's sorted operand tuple is
discarded by line 91, so the two adds get distinct values (and its
commutative tuple lists `add` twice but lacks `and`).  cs6120/lvn.py, whose
sort is effective, rewrites the second add to `y = id x` as the claim
states. -/
theorem lvn_commutative_sort_discarded :
    oldLvnBlock [addInstr "x" "a" "b", addInstr "y" "b" "a"] =
      some [addInstr "x" "a" "b", addInstr "y" "b" "a"] ∧
    lvnBlockNoCprop [addInstr "x" "a" "b", addInstr "y" "b" "a"] =
      some [addInstr "x" "a" "b",
            { noInstr with op := some "id", dest := some "y",
                           type := some "int", args := some ["x"] }] ∧
    ("and" ∉ COMMUTATIVE_OLD ∧ "and" ∈ COMMUTATIVE) := by
  exact ⟨rfl, rfl, by decide⟩

end Bril
